import Mathlib

/-!
Verification of the bottom-up stepwise-hybrid BFS implementation
(src/src/alg/totem_bfs_stepwise_hybrid.cu) against its design document.

The algorithm file is embedded directly.  The modules it links against
(the superstep engine, the bitmap module, the frontier tracker and the
grooves mailboxes) are not part of this repository's sources; they are
modelled from the design document and each such definition carries a
doc comment saying so.
-/

/-- error_t: the result type of the public interface. -/
inductive error_t where
  | SUCCESS : error_t
  | FAILURE : error_t
deriving DecidableEq, Repr

/-- Modelled from the spec: cost values are BFS levels (non-negative
integers) with an "unreachable" sentinel INF_COST; the concrete machine
width of cost_t is defined outside this repository, so costs are
embedded as Nat. -/
def INF_COST : Nat := 65535

/-- Modelled from the spec: the per-partition bitmap set (the totem
bitmap module is outside this repository): a fixed-capacity bit vector
keyed by local vertex id, here a finite set of the indices whose bit
is set. -/
abbrev bitmap_t := Finset Nat

/-- bitmap test (bitmap_is_set). -/
def bitmap_is_set (b : bitmap_t) (i : Nat) : Bool := decide (i ∈ b)

/-- bitmap set, CPU flavour (bitmap_set_cpu); idempotent bit set. -/
def bitmap_set_cpu (b : bitmap_t) (i : Nat) : bitmap_t := insert i b

/-- bitmap set, GPU flavour (bitmap_set_gpu); same semantics as the
CPU flavour, performed with a device atomic in the source. -/
def bitmap_set_gpu (b : bitmap_t) (i : Nat) : bitmap_t := insert i b

/-- A partition's CSR subgraph (graph_t).  vertices is the row-offset
array (vertex_count + 1 entries); each edge entry encodes the owning
partition id of the destination (GET_PARTITION_ID) and the
destination's id within that partition's numbering (GET_VERTEX_ID),
embedded here as a pair. -/
structure graph_t where
  vertex_count : Nat
  vertices : List Nat
  edges : List (Nat × Nat)
deriving DecidableEq, Repr

/-- The CSR edge slice of one vertex: edges[vertices[v] .. vertices[v+1]). -/
def neighbors (g : graph_t) (v : Nat) : List (Nat × Nat) :=
  (g.edges.drop (g.vertices.getD v 0)).take
    (g.vertices.getD (v + 1) 0 - g.vertices.getD v 0)

/-- Processor affinity of a partition (processor_t). -/
inductive processor_type where
  | CPU : processor_type
  | GPU : processor_type
deriving DecidableEq, Repr

/-- A partition (partition_t): its id, CSR subgraph, affinity and
local-to-global vertex map.  The mailbox tables live in System. -/
structure partition_t where
  id : Nat
  subgraph : graph_t
  processor : processor_type
  map : List Nat
deriving DecidableEq, Repr

instance : Inhabited partition_t :=
  ⟨⟨0, ⟨0, [], []⟩, processor_type.CPU, []⟩⟩

/-- Modelled from the spec: the partitioned-graph environment produced
by the (external) partitioning step: the partition list, the per
(owner, consumer) remote-neighbour tables of the grooves mailboxes
(rmt_nbrs p q is the table of the box written by partition p and read
by partition q: it maps a box bit index to a p-local vertex id), and
the global vertex/edge counts reported by the engine. -/
structure System where
  partition_count : Nat
  parts : List partition_t
  rmt_nbrs : Nat → Nat → List Nat
  N : Nat
  edge_count : Nat

/-- The partition with a given id. -/
def partAt (sys : System) (p : Nat) : partition_t := sys.parts.getD p default

/-- Number of local vertices of partition p. -/
def vcount (sys : System) (p : Nat) : Nat := (partAt sys p).subgraph.vertex_count

/-- Global id of local vertex v of partition p. -/
def gmap (sys : System) (p v : Nat) : Nat := (partAt sys p).map.getD v 0

/-- Per-partition BFS state (bfs_state_t).  The cost array is embedded
as a function from local vertex id to cost; visited is the partition's
own visited bitmap (visited[par->id]); frontier_cur is the frontier
tracker's current bitmap (frontier[par->id]); last_visited is the
tracker's snapshot of visited at its previous update (modelled from
the spec, the tracker module being outside this repository). -/
structure bfs_state_t where
  cost : Nat → Nat
  visited : bitmap_t
  frontier_cur : bitmap_t
  last_visited : bitmap_t
  level : Nat

/-- Whole-system mutable state: per-partition algorithm state
(par->algo_state, none when unallocated), the shared mailbox bit
buffers (boxes p q is the buffer written by p's gather towards
consumer q, aliased by q as its frontier bitmap for p), and the
engine's shared finished flag. -/
structure SysState where
  pstate : Nat → Option bfs_state_t
  boxes : Nat → Nat → bitmap_t
  finished : Bool

/-- The inner neighbour scan of bfs_bu_step / bfs_bu_kernel: walk the
CSR edge slice in order and stop at the first neighbour whose bit is
set in the frontier bitmap of its owning partition. -/
def bfs_bu_scan (frontier : Nat → bitmap_t) : List (Nat × Nat) → Bool
  | [] => false
  | e :: rest =>
      if bitmap_is_set (frontier e.1) e.2 then true
      else bfs_bu_scan frontier rest

/-- One CPU bottom-up step (bfs_bu_step): iterate over all local
vertices; skip visited ones; an unvisited vertex with a neighbour in
the frontier becomes visited with cost level + 1 and clears the local
finished accumulator; finally the shared finished flag is cleared when
the accumulator was cleared.  The OMP parallel-for with its reduction
is embedded as a left fold, which is exact because each iteration
writes only the bit and cost slot of its own vertex.  The loop body
is named separately as bfs_bu_step_body. -/
def bfs_bu_step_body (g : graph_t) (frontier : Nat → bitmap_t)
    (acc : bfs_state_t × Bool) (vertex_id : Nat) : bfs_state_t × Bool :=
  if bitmap_is_set acc.1.visited vertex_id then acc
  else if bfs_bu_scan frontier (neighbors g vertex_id) then
    ({ acc.1 with
        visited := bitmap_set_cpu acc.1.visited vertex_id,
        cost := Function.update acc.1.cost vertex_id (acc.1.level + 1) },
      false)
  else acc

def bfs_bu_step (par : partition_t) (frontier : Nat → bitmap_t)
    (st : bfs_state_t) (f0 : Bool) : bfs_state_t × Bool :=
  let g := par.subgraph
  let res := (List.range g.vertex_count).foldl (bfs_bu_step_body g frontier)
    (st, true)
  (res.1, if res.2 then f0 else false)

/-- One GPU device thread of bfs_bu_kernel, for a given global thread
index: returns the cost value the thread writes for its vertex, if
any.  Mirrors the kernel body: bounds guard, visited guard, neighbour
scan, write of level + 1. -/
def bfs_bu_kernel (par : partition_t) (frontier : Nat → bitmap_t)
    (st : bfs_state_t) (vertex_id : Nat) : Option Nat :=
  if par.subgraph.vertex_count ≤ vertex_id then none
  else if bitmap_is_set st.visited vertex_id then none
  else if bfs_bu_scan frontier (neighbors par.subgraph vertex_id) then
    some (st.level + 1)
  else none

/-- Modelled from the spec: the launch of bfs_bu_kernel with one
lightweight thread per vertex.  Every thread reads the pre-kernel
state; writes are per-vertex disjoint; a thread that visited its
vertex also clears the shared finished flag. -/
def bfs_bu_kernel_launch (par : partition_t) (frontier : Nat → bitmap_t)
    (st : bfs_state_t) (f0 : Bool) : bfs_state_t × Bool :=
  let newly := (Finset.range par.subgraph.vertex_count).filter
    (fun v => (bfs_bu_kernel par frontier st v).isSome = true)
  ({ st with
      visited := st.visited ∪ newly,
      cost := fun v =>
        match bfs_bu_kernel par frontier st v with
        | some c => c
        | none => st.cost v },
    if newly = ∅ then f0 else false)

/-- Modelled from the spec: frontier_update_bitmap (the frontier
module is outside this repository): after an update, the tracker's
current bitmap holds exactly the bits that became set in visited since
the previous update, and the snapshot is advanced. -/
def frontier_update_bitmap (st : bfs_state_t) : bfs_state_t :=
  { st with
      frontier_cur := st.visited \ st.last_visited,
      last_visited := st.visited }

/-- The frontier array read by a partition's step: slot par.id is the
tracker's current bitmap (assigned in bfs_stepwise_cpu/gpu just before
the step); every other slot aliases the owner's outbox buffer, i.e.
boxes pid par.id (assigned once in bfs_init). -/
def frontier_view (par : partition_t) (boxes : Nat → Nat → bitmap_t)
    (st : bfs_state_t) : Nat → bitmap_t :=
  fun pid => if pid = par.id then st.frontier_cur else boxes pid par.id

/-- bfs_stepwise_cpu: update the frontier tracker, publish its current
bitmap as frontier[par->id], then execute a CPU step. -/
def bfs_stepwise_cpu (par : partition_t) (boxes : Nat → Nat → bitmap_t)
    (st : bfs_state_t) (f0 : Bool) : bfs_state_t × Bool :=
  let st1 := frontier_update_bitmap st
  bfs_bu_step par (frontier_view par boxes st1) st1 f0

/-- bfs_stepwise_gpu: update the frontier tracker, publish its current
bitmap as frontier[par->id], then launch the GPU step kernel. -/
def bfs_stepwise_gpu (par : partition_t) (boxes : Nat → Nat → bitmap_t)
    (st : bfs_state_t) (f0 : Bool) : bfs_state_t × Bool :=
  let st1 := frontier_update_bitmap st
  bfs_bu_kernel_launch par (frontier_view par boxes st1) st1 f0

/-- The per-superstep execution callback (bfs): return at once for an
empty partition; on superstep 1 only report not-finished; otherwise
run the processor-specific step and then increment the partition's
level.  The engine's per-partition finished flags are modelled as one
shared flag (their conjunction). -/
def bfs (sys : System) (superstep : Nat) (p : Nat) (ss : SysState) : SysState :=
  let par := partAt sys p
  if par.subgraph.vertex_count = 0 then ss
  else if superstep = 1 then { ss with finished := false }
  else
    match ss.pstate p with
    | none => ss
    | some st =>
        let r :=
          match par.processor with
          | processor_type.CPU => bfs_stepwise_cpu par ss.boxes st ss.finished
          | processor_type.GPU => bfs_stepwise_gpu par ss.boxes st ss.finished
        { ss with
            pstate := Function.update ss.pstate p
              (some { r.1 with level := r.1.level + 1 }),
            finished := r.2 }

/-- The data-parallel loop of bfs_gather_cpu over one inbox, and the
aggregate effect of the bfs_gather_gpu kernel (one thread per inbox
entry, disjoint writes): for every entry index, look up the recorded
local vertex id and, when its bit is set in the partition's own
visited bitmap, set the bit at that index in the shared buffer. -/
def bfs_gather_box (visited : bitmap_t) (tbl : List Nat) (box : bitmap_t) :
    bitmap_t :=
  (List.range tbl.length).foldl
    (fun b index =>
      if bitmap_is_set visited (tbl.getD index 0) then bitmap_set_cpu b index
      else b)
    box

/-- The gather callback (bfs_gather): for every remote partition other
than itself whose inbox has a nonzero entry count, publish the
partition's own visited bits into that inbox's shared buffer (CPU
loop and GPU kernel have the same aggregate effect, embedded once). -/
def bfs_gather (sys : System) (p : Nat) (ss : SysState) : SysState :=
  let visited :=
    match ss.pstate p with
    | some st => st.visited
    | none => (∅ : bitmap_t)
  { ss with
      boxes := fun a b =>
        if a = p ∧ b ≠ p ∧ b < sys.partition_count ∧
            (sys.rmt_nbrs p b).length ≠ 0 then
          bfs_gather_box visited (sys.rmt_nbrs p b) (ss.boxes a b)
        else ss.boxes a b }

/-- The init callback (bfs_init with bfs_init_cpu / bfs_init_gpu):
return at once for an empty partition; otherwise allocate the state,
create the visited bitmap with the source bit set when the source
lives here, clear this partition's inbox buffers, set every cost slot
to INF_COST except the source's (0), and start at level 0.  sp and sv
are the partition id and partition-local id of the source
(state_g.src). -/
def bfs_init (sys : System) (sp sv : Nat) (p : Nat) (ss : SysState) : SysState :=
  let par := partAt sys p
  if par.subgraph.vertex_count = 0 then ss
  else
    { ss with
        pstate := Function.update ss.pstate p
          (some
            { cost := fun v => if p = sp ∧ v = sv then 0 else INF_COST,
              visited := if p = sp then {sv} else ∅,
              frontier_cur := ∅,
              last_visited := ∅,
              level := 0 }),
        boxes := fun a b =>
          if a = p ∧ b ≠ p ∧ (sys.rmt_nbrs p b).length ≠ 0 then ∅
          else ss.boxes a b }

/-- The aggregate callback (bfs_aggregate): return at once for an
empty partition; otherwise copy the partition's cost array (for a GPU
partition, via the host staging buffer, with identical contents) into
the global output array through the local-to-global map. -/
def bfs_aggregate (sys : System) (p : Nat) (ss : SysState)
    (out : Nat → Nat) : Nat → Nat :=
  let par := partAt sys p
  if par.subgraph.vertex_count = 0 then out
  else
    match ss.pstate p with
    | none => out
    | some st =>
        let src_cost := st.cost
        (List.range par.subgraph.vertex_count).foldl
          (fun g v => Function.update g (par.map.getD v 0) (src_cost v)) out

/-- The finalize callback (bfs_finalize): return at once for an empty
partition; otherwise release the partition's state. -/
def bfs_finalize (sys : System) (p : Nat) (ss : SysState) : SysState :=
  if vcount sys p = 0 then ss
  else { ss with pstate := Function.update ss.pstate p none }

/-- Modelled from the spec: one engine superstep drives every
partition through the execution callback, then through the gather
callback (the superstep barrier separates the two phases). -/
def engine_round (sys : System) (superstep : Nat) (ss : SysState) : SysState :=
  let ss1 := (List.range sys.partition_count).foldl
    (fun t p => bfs sys superstep p t) ss
  (List.range sys.partition_count).foldl (fun t p => bfs_gather sys p t) ss1

/-- Modelled from the spec: the engine's superstep loop: reset the
finished flag, run one superstep, stop when no partition reported
not-finished, otherwise advance the superstep counter and repeat.
The loop is given explicit fuel; the correctness proof shows the
fixed point is reached within the fuel used by bfs_stepwise_hybrid. -/
def engine_loop (sys : System) : Nat → Nat → SysState → SysState
  | 0, _, ss => ss
  | Nat.succ fuel, superstep, ss =>
      let ss' := engine_round sys superstep { ss with finished := true }
      if ss'.finished then ss'
      else engine_loop sys fuel (superstep + 1) ss'

/-- First position of a value in a list. -/
def firstIdx (u : Nat) : List Nat → Option Nat
  | [] => none
  | x :: t => if x = u then some 0 else (firstIdx u t).map (fun i => i + 1)

/-- Search the partitions 0, 1, ... for the owner of a global id. -/
def ownerSearch (sys : System) (u : Nat) : Nat → Option (Nat × Nat)
  | 0 => none
  | p + 1 =>
      match ownerSearch sys u p with
      | some pv => some pv
      | none =>
          match firstIdx u (partAt sys p).map with
          | some v => some (p, v)
          | none => none

/-- Modelled from the spec: engine_vertex_id_in_partition: decompose a
global vertex id into (partition id, partition-local id) through the
partition maps. -/
def vertex_id_in_partition (sys : System) (u : Nat) : Nat × Nat :=
  match ownerSearch sys u sys.partition_count with
  | some pv => pv
  | none => (0, 0)

/-- check_special_cases: failure for an out-of-range source or a null
output buffer; direct answers for a one-vertex or an edge-less graph.
Returns (result, output buffer contents, finished). -/
def check_special_cases (sys : System) (src : Nat)
    (cost : Option (Nat → Nat)) : error_t × Option (Nat → Nat) × Bool :=
  if sys.N ≤ src ∨ cost.isNone = true then (error_t.FAILURE, cost, true)
  else if sys.N = 1 then
    (error_t.SUCCESS, cost.map (fun c => Function.update c 0 0), true)
  else if sys.edge_count = 0 then
    (error_t.SUCCESS,
      cost.map (fun c =>
        Function.update (fun v => if v < sys.N then INF_COST else c v) src 0),
      true)
  else (error_t.SUCCESS, cost, false)

/-- The public entry point (bfs_stepwise_hybrid): special cases first;
otherwise set up the global state, drive the engine (init every
partition, superstep loop from superstep 1, aggregate every partition,
finalize every partition) and return SUCCESS with the filled output
buffer.  The fuel sys.N + 2 is enough for the loop's fixed point, as
proved below. -/
def bfs_stepwise_hybrid (sys : System) (src : Nat)
    (cost : Option (Nat → Nat)) : error_t × Option (Nat → Nat) :=
  let chk := check_special_cases sys src cost
  if chk.2.2 then (chk.1, chk.2.1)
  else
    let buf := cost.getD (fun _ => 0)
    let sdec := vertex_id_in_partition sys src
    let ss0 : SysState := ⟨fun _ => none, fun _ _ => ∅, true⟩
    let ss1 := (List.range sys.partition_count).foldl
      (fun t p => bfs_init sys sdec.1 sdec.2 p t) ss0
    let ssF := engine_loop sys (sys.N + 2) 1 ss1
    let out := (List.range sys.partition_count).foldl
      (fun g p => bfs_aggregate sys p ssF g) buf
    (error_t.SUCCESS, some out)

/-- Decode one CSR edge entry of partition p to the global id of its
destination: an own-partition entry holds the local id directly; a
remote entry holds an index into the owner's mailbox table towards p
(the remote-neighbour local id recorded at partition-setup time). -/
def decodeEdge (sys : System) (p : Nat) (e : Nat × Nat) : Nat :=
  if e.1 = p then gmap sys p e.2
  else gmap sys e.1 ((sys.rmt_nbrs e.1 p).getD e.2 0)

/-- The global adjacency induced by the partitioned CSR subgraphs:
u is adjacent to w when the partition owning u has an edge entry from
u's local slice decoding to w. -/
def globalAdjB (sys : System) (u w : Nat) : Bool :=
  (List.range sys.partition_count).any (fun p =>
    (List.range (vcount sys p)).any (fun v =>
      decide (gmap sys p v = u) &&
        (neighbors (partAt sys p).subgraph v).any
          (fun e => decide (decodeEdge sys p e = w))))

/-- Prop form of the global adjacency. -/
def globalAdj (sys : System) (u w : Nat) : Prop := globalAdjB sys u w = true

instance (sys : System) (u w : Nat) : Decidable (globalAdj sys u w) := by
  unfold globalAdj
  infer_instance

/-- A walk of a given edge count in a graph given by an adjacency
relation. -/
inductive Walk (adj : Nat → Nat → Prop) : Nat → Nat → Nat → Prop where
  | refl (u : Nat) : Walk adj u u 0
  | cons {u v w n : Nat} : adj u v → Walk adj v w n → Walk adj u w (n + 1)

/-- The ball of radius k around src in the global graph: the set of
global ids reachable from src by a walk of at most k edges (shown
below); defined by the BFS expansion that the algorithm performs. -/
def ball (sys : System) (src : Nat) : Nat → Finset Nat
  | 0 => {src}
  | k + 1 =>
      ball sys src k ∪
        (Finset.range sys.N).filter
          (fun w => ∃ u ∈ ball sys src k, globalAdj sys u w)

/-- The smallest radius at which a vertex is inside the ball, searched
downward from a bound. -/
def entryLevel (sys : System) (src u : Nat) : Nat → Nat
  | 0 => 0
  | b + 1 => if u ∈ ball sys src b then entryLevel sys src u b else b + 1

/-- Validity of one CSR edge entry of partition p: an own-partition
entry addresses a local vertex; a remote entry addresses an in-range
partition and an in-range slot of that partition's mailbox table
towards p. -/
def edgeOK (sys : System) (p : Nat) (e : Nat × Nat) : Bool :=
  if e.1 = p then decide (e.2 < vcount sys p)
  else decide (e.1 < sys.partition_count) &&
    decide (e.2 < (sys.rmt_nbrs e.1 p).length)

/-- Well-formedness of a partitioned graph environment, as established
by the (external) partitioning step: partition list and ids; maps into
the global range forming a partition of it; edge entries within
bounds; mailbox tables within bounds; the engine's edge count; and
symmetry of the induced adjacency (the algorithm is specified for
undirected graphs only). -/
def sysWF (sys : System) : Prop :=
  sys.parts.length = sys.partition_count ∧
  (∀ p < sys.partition_count, (partAt sys p).id = p) ∧
  (∀ p < sys.partition_count, (partAt sys p).map.length = vcount sys p) ∧
  (∀ p < sys.partition_count, ∀ v < vcount sys p, gmap sys p v < sys.N) ∧
  (∀ u < sys.N, ∃ p < sys.partition_count, ∃ v < vcount sys p,
    gmap sys p v = u) ∧
  (∀ p < sys.partition_count, ∀ v < vcount sys p,
    ∀ q < sys.partition_count, ∀ w < vcount sys q,
      gmap sys p v = gmap sys q w → p = q) ∧
  (∀ p < sys.partition_count, ∀ v < vcount sys p,
    ∀ q < sys.partition_count, ∀ w < vcount sys q,
      gmap sys p v = gmap sys q w → v = w) ∧
  (∀ p < sys.partition_count, ∀ v < vcount sys p,
    ∀ e ∈ neighbors (partAt sys p).subgraph v, edgeOK sys p e = true) ∧
  (∀ p < sys.partition_count, ∀ q < sys.partition_count,
    ∀ x ∈ sys.rmt_nbrs p q, x < vcount sys p) ∧
  (sys.edge_count = ((List.range sys.partition_count).map
    (fun p => (partAt sys p).subgraph.edges.length)).sum) ∧
  (∀ u < sys.N, ∀ w < sys.N, globalAdj sys u w → globalAdj sys w u)

set_option synthInstance.maxSize 2048 in
set_option maxHeartbeats 1000000 in
instance (sys : System) : Decidable (sysWF sys) := by
  unfold sysWF
  infer_instance

/-! ### Scan lemmas -/

theorem bfs_bu_scan_eq_any (frontier : Nat → bitmap_t) (l : List (Nat × Nat)) :
    bfs_bu_scan frontier l =
      l.any (fun e => bitmap_is_set (frontier e.1) e.2) := by
  induction l with
  | nil => rfl
  | cons e t ih =>
      by_cases h : bitmap_is_set (frontier e.1) e.2 = true
      · simp [bfs_bu_scan, h]
      · simp only [Bool.not_eq_true] at h
        simp [bfs_bu_scan, h, ih]

theorem bfs_bu_scan_iff (frontier : Nat → bitmap_t) (l : List (Nat × Nat)) :
    bfs_bu_scan frontier l = true ↔
      ∃ e ∈ l, bitmap_is_set (frontier e.1) e.2 = true := by
  rw [bfs_bu_scan_eq_any, List.any_eq_true]

/-! ### Closed form of one bottom-up step -/

/-- Whether the step makes vertex v newly visited: not yet visited and
a neighbour of v is in the frontier. -/
def becomes_visited (g : graph_t) (frontier : Nat → bitmap_t)
    (st : bfs_state_t) (v : Nat) : Bool :=
  !(bitmap_is_set st.visited v) && bfs_bu_scan frontier (neighbors g v)

/-- The closed form of the step loop over a vertex list. -/
def step_closed (g : graph_t) (frontier : Nat → bitmap_t)
    (st : bfs_state_t) (l : List Nat) (b : Bool) : bfs_state_t × Bool :=
  ({ st with
      cost := fun v =>
        if v ∈ l ∧ becomes_visited g frontier st v = true then st.level + 1
        else st.cost v,
      visited := st.visited ∪ (l.filter (becomes_visited g frontier st)).toFinset },
    b && !(l.any (becomes_visited g frontier st)))

theorem step_fold_char (g : graph_t) (frontier : Nat → bitmap_t) :
    ∀ (l : List Nat), l.Nodup → ∀ (st : bfs_state_t) (b : Bool),
      l.foldl (bfs_bu_step_body g frontier) (st, b) =
        step_closed g frontier st l b := by
  intro l
  induction l with
  | nil =>
      intro _ st b
      simp only [List.foldl_nil, step_closed, List.filter_nil, List.toFinset_nil,
        Finset.union_empty, List.any_nil, Bool.not_false, Bool.and_true,
        List.not_mem_nil, false_and, if_false]
  | cons v t ih =>
      intro hnd st b
      rw [List.nodup_cons] at hnd
      obtain ⟨hv, hnd'⟩ := hnd
      rw [List.foldl_cons]
      by_cases hbv : becomes_visited g frontier st v = true
      · have h1 : bitmap_is_set st.visited v = false := by
          rcases Bool.and_eq_true _ _ |>.mp hbv with ⟨ha, _⟩
          simpa using ha
        have h2 : bfs_bu_scan frontier (neighbors g v) = true :=
          (Bool.and_eq_true _ _ |>.mp hbv).2
        have hbody : bfs_bu_step_body g frontier (st, b) v =
            ({ st with
                visited := insert v st.visited,
                cost := Function.update st.cost v (st.level + 1) }, false) := by
          simp [bfs_bu_step_body, h1, h2, bitmap_set_cpu]
        rw [hbody, ih hnd' _ false]
        have hcong : ∀ w ∈ t,
            becomes_visited g frontier
              { st with
                  visited := insert v st.visited,
                  cost := Function.update st.cost v (st.level + 1) } w =
            becomes_visited g frontier st w := by
          intro w hw
          have hwv : w ≠ v := fun h => hv (h ▸ hw)
          simp [becomes_visited, bitmap_is_set, Finset.mem_insert, hwv]
        unfold step_closed
        refine Prod.ext ?_ ?_
        · simp only
          congr 1
          · funext w
            by_cases hwv : w = v
            · subst hwv
              have : w ∉ t := hv
              simp [this, hbv, Function.update_same]
            · by_cases hwt : w ∈ t
              · have := hcong w hwt
                simp only [this, List.mem_cons, hwv, false_or]
                by_cases hb : becomes_visited g frontier st w = true
                · simp [hwt, hb]
                · simp [hwt, hb, Function.update_noteq hwv]
              · simp only [List.mem_cons, hwv, false_or, hwt, false_and, if_false]
                simp [Function.update_noteq hwv]
          · rw [List.filter_congr hcong]
            rw [List.filter_cons_of_pos hbv]
            rw [List.toFinset_cons, Finset.union_insert, Finset.insert_union]
        · simp only
          rw [List.any_cons, hbv]
          simp
      · have hbf : becomes_visited g frontier st v = false :=
          Bool.not_eq_true _ |>.mp hbv
        have hbody : bfs_bu_step_body g frontier (st, b) v = (st, b) := by
          by_cases h1 : bitmap_is_set st.visited v = true
          · simp [bfs_bu_step_body, h1]
          · have h1f : bitmap_is_set st.visited v = false :=
              Bool.not_eq_true _ |>.mp h1
            have h2 : bfs_bu_scan frontier (neighbors g v) = false := by
              have := hbf
              simp [becomes_visited, h1f] at this
              exact this
            simp [bfs_bu_step_body, h1f, h2]
        rw [hbody, ih hnd' st b]
        unfold step_closed
        refine Prod.ext ?_ ?_
        · simp only
          congr 1
          · funext w
            by_cases hwv : w = v
            · subst hwv
              have hwt : w ∉ t := hv
              simp [hwt, hbf]
            · simp [List.mem_cons, hwv]
          · rw [List.filter_cons_of_neg (by simp [hbf])]
        · simp only
          rw [List.any_cons, hbf]
          simp

/-- The CPU step in closed form. -/
theorem bfs_bu_step_char (par : partition_t) (frontier : Nat → bitmap_t)
    (st : bfs_state_t) (f0 : Bool) :
    bfs_bu_step par frontier st f0 =
      ({ st with
          cost := fun v =>
            if v < par.subgraph.vertex_count ∧
                becomes_visited par.subgraph frontier st v = true then
              st.level + 1
            else st.cost v,
          visited := st.visited ∪
            (Finset.range par.subgraph.vertex_count).filter
              (fun v => becomes_visited par.subgraph frontier st v = true) },
        if (List.range par.subgraph.vertex_count).any
            (becomes_visited par.subgraph frontier st) then false
        else f0) := by
  unfold bfs_bu_step
  simp only [step_fold_char _ _ _ (List.nodup_range _) st true]
  unfold step_closed
  refine Prod.ext ?_ ?_
  · simp only
    congr 1
    · funext w
      simp [List.mem_range]
    · ext w
      simp [List.mem_filter, List.mem_toFinset, Finset.mem_filter,
        Finset.mem_range, List.mem_range]
  · simp only
    cases h : (List.range par.subgraph.vertex_count).any
        (becomes_visited par.subgraph frontier st) <;> simp [h]

/-- A kernel thread writes its vertex exactly when the step predicate
holds (and the thread index is in range). -/
theorem bfs_bu_kernel_isSome (par : partition_t) (frontier : Nat → bitmap_t)
    (st : bfs_state_t) (v : Nat) :
    (bfs_bu_kernel par frontier st v).isSome = true ↔
      (v < par.subgraph.vertex_count ∧
        becomes_visited par.subgraph frontier st v = true) := by
  unfold bfs_bu_kernel becomes_visited
  by_cases h0 : par.subgraph.vertex_count ≤ v
  · simp [h0, Nat.not_lt_of_le h0]
  · have h0' : v < par.subgraph.vertex_count := Nat.lt_of_not_le h0
    by_cases h1 : bitmap_is_set st.visited v = true
    · simp [h0, h0', h1]
    · have h1' : bitmap_is_set st.visited v = false := by simpa using h1
      by_cases h2 : bfs_bu_scan frontier (neighbors par.subgraph v) = true
      · simp [h0, h0', h1', h2]
      · have h2' : bfs_bu_scan frontier (neighbors par.subgraph v) = false := by
          simpa using h2
        simp [h0, h0', h1', h2']

/-- The GPU kernel launch and the CPU step compute the same state and
the same finished signal. -/
theorem kernel_launch_eq_step (par : partition_t) (frontier : Nat → bitmap_t)
    (st : bfs_state_t) (f0 : Bool) :
    bfs_bu_kernel_launch par frontier st f0 = bfs_bu_step par frontier st f0 := by
  rw [bfs_bu_step_char]
  unfold bfs_bu_kernel_launch
  refine Prod.ext ?_ ?_
  · simp only
    congr 1
    · funext v
      by_cases hin : v < par.subgraph.vertex_count ∧
          becomes_visited par.subgraph frontier st v = true
      · have hsome : (bfs_bu_kernel par frontier st v).isSome = true :=
          (bfs_bu_kernel_isSome par frontier st v).mpr hin
        have : bfs_bu_kernel par frontier st v = some (st.level + 1) := by
          unfold bfs_bu_kernel
          have h1 : ¬ par.subgraph.vertex_count ≤ v := Nat.not_le_of_lt hin.1
          have h2 : bitmap_is_set st.visited v = false := by
            have := hin.2
            unfold becomes_visited at this
            rcases Bool.and_eq_true _ _ |>.mp this with ⟨ha, _⟩
            simpa using ha
          have h3 : bfs_bu_scan frontier (neighbors par.subgraph v) = true := by
            have := hin.2
            unfold becomes_visited at this
            exact (Bool.and_eq_true _ _ |>.mp this).2
          simp [h1, h2, h3]
        rw [this]
        simp [hin]
      · have hnone : bfs_bu_kernel par frontier st v = none := by
          cases hk : bfs_bu_kernel par frontier st v with
          | none => rfl
          | some c =>
              exfalso
              exact hin ((bfs_bu_kernel_isSome par frontier st v).mp
                (by rw [hk]; rfl))
        rw [hnone]
        simp [hin]
    · ext v
      simp only [Finset.mem_union, Finset.mem_filter, Finset.mem_range,
        bfs_bu_kernel_isSome]
      tauto
  · simp only
    by_cases hany : (List.range par.subgraph.vertex_count).any
        (becomes_visited par.subgraph frontier st) = true
    · rcases List.any_eq_true.mp hany with ⟨v, hvmem, hvb⟩
      have hne : (Finset.range par.subgraph.vertex_count).filter
          (fun v => (bfs_bu_kernel par frontier st v).isSome = true) ≠ ∅ := by
        intro hemp
        have : v ∈ (Finset.range par.subgraph.vertex_count).filter
            (fun v => (bfs_bu_kernel par frontier st v).isSome = true) := by
          rw [Finset.mem_filter, Finset.mem_range]
          refine ⟨List.mem_range.mp hvmem, ?_⟩
          exact (bfs_bu_kernel_isSome par frontier st v).mpr
            ⟨List.mem_range.mp hvmem, hvb⟩
        rw [hemp] at this
        exact absurd this (Finset.not_mem_empty v)
      simp [hne, hany]
    · have hemp : (Finset.range par.subgraph.vertex_count).filter
          (fun v => (bfs_bu_kernel par frontier st v).isSome = true) = ∅ := by
        ext v
        simp only [Finset.mem_filter, Finset.mem_range, bfs_bu_kernel_isSome,
          Finset.not_mem_empty, iff_false]
        intro hc
        exact hany (List.any_eq_true.mpr
          ⟨v, List.mem_range.mpr hc.1, hc.2.2⟩)
      have hanyf : (List.range par.subgraph.vertex_count).any
          (becomes_visited par.subgraph frontier st) = false := by
        simpa using hany
      simp [hemp, hanyf]

/-! ### Gather characterization -/

theorem bfs_gather_box_mem (visited : bitmap_t) (tbl : List Nat)
    (box : bitmap_t) (idx : Nat) :
    idx ∈ bfs_gather_box visited tbl box ↔
      idx ∈ box ∨ (idx < tbl.length ∧
        bitmap_is_set visited (tbl.getD idx 0) = true) := by
  unfold bfs_gather_box
  have main : ∀ (l : List Nat) (b : bitmap_t),
      idx ∈ l.foldl
        (fun b index =>
          if bitmap_is_set visited (tbl.getD index 0) = true then
            bitmap_set_cpu b index
          else b) b ↔
      idx ∈ b ∨ (idx ∈ l ∧ bitmap_is_set visited (tbl.getD idx 0) = true) := by
    intro l
    induction l with
    | nil => intro b; simp
    | cons x t ih =>
        intro b
        rw [List.foldl_cons]
        by_cases hx : bitmap_is_set visited (tbl.getD x 0) = true
        · rw [if_pos hx, ih]
          unfold bitmap_set_cpu
          constructor
          · rintro (hmem | hmem)
            · rcases Finset.mem_insert.mp hmem with h | h
              · subst h
                exact Or.inr ⟨List.mem_cons_self _ _, hx⟩
              · exact Or.inl h
            · exact Or.inr ⟨List.mem_cons_of_mem _ hmem.1, hmem.2⟩
          · rintro (hmem | ⟨hmem, hbit⟩)
            · exact Or.inl (Finset.mem_insert_of_mem hmem)
            · rcases List.mem_cons.mp hmem with h | h
              · subst h
                exact Or.inl (Finset.mem_insert_self _ _)
              · exact Or.inr ⟨h, hbit⟩
        · rw [if_neg hx, ih]
          constructor
          · rintro (hmem | hmem)
            · exact Or.inl hmem
            · exact Or.inr ⟨List.mem_cons_of_mem _ hmem.1, hmem.2⟩
          · rintro (hmem | ⟨hmem, hbit⟩)
            · exact Or.inl hmem
            · rcases List.mem_cons.mp hmem with h | h
              · subst h
                exact absurd hbit hx
              · exact Or.inr ⟨h, hbit⟩
  rw [main]
  simp [List.mem_range]

/-- The partition's own visited bitmap as recorded in the system state
(empty when the partition's state is unallocated). -/
def visitedOf (ss : SysState) (p : Nat) : bitmap_t :=
  match ss.pstate p with
  | some st => st.visited
  | none => ∅

/-- The gather callback in closed form: it touches no partition state
and no flag, and only ever adds bits to this partition's boxes, one
bit per inbox entry whose recorded vertex is visited. -/
theorem bfs_gather_char (sys : System) (p : Nat) (ss : SysState) :
    (bfs_gather sys p ss).pstate = ss.pstate ∧
    (bfs_gather sys p ss).finished = ss.finished ∧
    ∀ a b idx, idx ∈ (bfs_gather sys p ss).boxes a b ↔
      (idx ∈ ss.boxes a b ∨
        (a = p ∧ b ≠ p ∧ b < sys.partition_count ∧
          idx < (sys.rmt_nbrs p b).length ∧
          bitmap_is_set (visitedOf ss p) ((sys.rmt_nbrs p b).getD idx 0) = true)) := by
  refine ⟨rfl, rfl, ?_⟩
  intro a b idx
  show idx ∈ (if a = p ∧ b ≠ p ∧ b < sys.partition_count ∧
      (sys.rmt_nbrs p b).length ≠ 0 then
    bfs_gather_box (visitedOf ss p) (sys.rmt_nbrs p b) (ss.boxes a b)
  else ss.boxes a b) ↔ _
  by_cases hg : a = p ∧ b ≠ p ∧ b < sys.partition_count ∧
      (sys.rmt_nbrs p b).length ≠ 0
  · rw [if_pos hg, bfs_gather_box_mem]
    constructor
    · rintro (h | ⟨hlen, hbit⟩)
      · exact Or.inl h
      · exact Or.inr ⟨hg.1, hg.2.1, hg.2.2.1, hlen, hbit⟩
    · rintro (h | ⟨_, _, _, hlen, hbit⟩)
      · exact Or.inl h
      · exact Or.inr ⟨hlen, hbit⟩
  · rw [if_neg hg]
    constructor
    · exact Or.inl
    · rintro (h | ⟨ha, hb, hc, hlen, hbit⟩)
      · exact h
      · exact absurd ⟨ha, hb, hc, by omega⟩ hg

/-! ### Canonical form of the execution callback -/

/-- The GPU flavour of the per-superstep work equals the CPU flavour. -/
theorem bfs_stepwise_gpu_eq_cpu (par : partition_t)
    (boxes : Nat → Nat → bitmap_t) (st : bfs_state_t) (f0 : Bool) :
    bfs_stepwise_gpu par boxes st f0 = bfs_stepwise_cpu par boxes st f0 := by
  unfold bfs_stepwise_gpu bfs_stepwise_cpu
  rw [kernel_launch_eq_step]

/-- The step's state result ignores the incoming flag, and the flag
result is the conjunction of the incoming flag with the local keep
signal. -/
theorem bfs_stepwise_cpu_flag (par : partition_t)
    (boxes : Nat → Nat → bitmap_t) (st : bfs_state_t) (f0 : Bool) :
    bfs_stepwise_cpu par boxes st f0 =
      ((bfs_stepwise_cpu par boxes st true).1,
        f0 && (bfs_stepwise_cpu par boxes st true).2) := by
  unfold bfs_stepwise_cpu
  simp only [bfs_bu_step_char]
  refine Prod.ext rfl ?_
  simp only
  cases h : (List.range par.subgraph.vertex_count).any
      (becomes_visited par.subgraph
        (frontier_view par boxes (frontier_update_bitmap st))
        (frontier_update_bitmap st)) <;> simp [h]

/-- The partition state produced by one execution callback, as a
function of the incoming boxes and the partition's own state. -/
def stepRes (sys : System) (superstep p : Nat) (boxes : Nat → Nat → bitmap_t)
    (stp : Option bfs_state_t) : Option bfs_state_t :=
  let par := partAt sys p
  if par.subgraph.vertex_count = 0 then stp
  else if superstep = 1 then stp
  else
    match stp with
    | none => none
    | some st =>
        let r := bfs_stepwise_cpu par boxes st true
        some { r.1 with level := r.1.level + 1 }

/-- Whether one execution callback leaves the finished flag alone
(true) or clears it (false). -/
def stepKeeps (sys : System) (superstep p : Nat)
    (boxes : Nat → Nat → bitmap_t) (stp : Option bfs_state_t) : Bool :=
  let par := partAt sys p
  if par.subgraph.vertex_count = 0 then true
  else if superstep = 1 then false
  else
    match stp with
    | none => true
    | some st => (bfs_stepwise_cpu par boxes st true).2

/-- The execution callback in canonical form: it writes only its own
partition's state, leaves the boxes alone, and can only lower the
finished flag. -/
theorem bfs_eq (sys : System) (superstep p : Nat) (ss : SysState) :
    bfs sys superstep p ss =
      { pstate := Function.update ss.pstate p
          (stepRes sys superstep p ss.boxes (ss.pstate p)),
        boxes := ss.boxes,
        finished := ss.finished &&
          stepKeeps sys superstep p ss.boxes (ss.pstate p) } := by
  rcases ss with ⟨ps, bx, fin⟩
  by_cases h0 : (partAt sys p).subgraph.vertex_count = 0
  · simp [bfs, stepRes, stepKeeps, h0, Function.update_eq_self]
  · by_cases h1 : superstep = 1
    · simp [bfs, stepRes, stepKeeps, h0, h1, Function.update_eq_self]
    · cases hst : ps p with
      | none =>
          have hupd : Function.update ps p none = ps := by
            conv_lhs => rw [← hst]
            exact Function.update_eq_self p ps
          simp [bfs, stepRes, stepKeeps, h0, h1, hst, hupd]
      | some st =>
          have key := bfs_stepwise_cpu_flag (partAt sys p) bx st fin
          cases hproc : (partAt sys p).processor with
          | CPU => simp [bfs, stepRes, stepKeeps, h0, h1, hst, hproc, key]
          | GPU =>
              simp [bfs, stepRes, stepKeeps, h0, h1, hst, hproc,
                bfs_stepwise_gpu_eq_cpu, key]

/-! ### Phase folds over the partitions -/

theorem list_all_congr {f g : Nat → Bool} :
    ∀ (l : List Nat), (∀ x ∈ l, f x = g x) → l.all f = l.all g := by
  intro l
  induction l with
  | nil => intro _; rfl
  | cons x t ih =>
      intro h
      rw [List.all_cons, List.all_cons, h x (List.mem_cons_self x t),
        ih (fun y hy => h y (List.mem_cons_of_mem x hy))]

/-- The step phase over a list of distinct partitions in closed form:
every listed partition's state advances independently from the same
incoming boxes, the boxes are untouched, and the finished flag is the
conjunction of the incoming flag with every partition's keep signal. -/
theorem steps_fold_char (sys : System) (superstep : Nat) :
    ∀ (l : List Nat), l.Nodup → ∀ (ss : SysState),
      l.foldl (fun t p => bfs sys superstep p t) ss =
        { pstate := fun q =>
            if q ∈ l then stepRes sys superstep q ss.boxes (ss.pstate q)
            else ss.pstate q,
          boxes := ss.boxes,
          finished := ss.finished &&
            l.all (fun p => stepKeeps sys superstep p ss.boxes (ss.pstate p)) } := by
  intro l
  induction l with
  | nil =>
      intro _ ss
      rcases ss with ⟨ps, bx, fin⟩
      simp
  | cons p t ih =>
      intro hnd ss
      rw [List.nodup_cons] at hnd
      rw [List.foldl_cons, bfs_eq, ih hnd.2]
      rcases ss with ⟨ps, bx, fin⟩
      simp only
      congr 1
      · funext q
        by_cases hq : q = p
        · subst hq
          simp [Function.update_same, hnd.1, List.mem_cons]
        · simp only [List.mem_cons, hq, false_or,
            Function.update_noteq hq]
      · rw [List.all_cons]
        have hcong : t.all (fun x =>
            stepKeeps sys superstep x bx (Function.update ps p
              (stepRes sys superstep p bx (ps p)) x)) =
            t.all (fun x => stepKeeps sys superstep x bx (ps x)) := by
          refine list_all_congr t ?_
          intro x hx
          have hxp : x ≠ p := fun h => hnd.1 (h ▸ hx)
          rw [Function.update_noteq hxp]
        rw [hcong, Bool.and_assoc]

/-- visitedOf ignores the boxes and the flag. -/
theorem visitedOf_mk (ps : Nat → Option bfs_state_t)
    (bx1 bx2 : Nat → Nat → bitmap_t) (f1 f2 : Bool) (p : Nat) :
    visitedOf ⟨ps, bx1, f1⟩ p = visitedOf ⟨ps, bx2, f2⟩ p := rfl

/-- The gather callback restated through visitedOf. -/
theorem bfs_gather_eq (sys : System) (p : Nat) (ss : SysState) :
    bfs_gather sys p ss =
      { ss with
          boxes := fun a b =>
            if a = p ∧ b ≠ p ∧ b < sys.partition_count ∧
                (sys.rmt_nbrs p b).length ≠ 0 then
              bfs_gather_box (visitedOf ss p) (sys.rmt_nbrs p b) (ss.boxes a b)
            else ss.boxes a b } := rfl

/-- The gather phase over a list of distinct partitions in closed
form: partition states and the flag are untouched; every listed
partition publishes its own visited bits into its nonzero boxes. -/
theorem gathers_fold_char (sys : System) :
    ∀ (l : List Nat), l.Nodup → ∀ (ss : SysState),
      l.foldl (fun t p => bfs_gather sys p t) ss =
        { pstate := ss.pstate,
          boxes := fun a b =>
            if a ∈ l ∧ b ≠ a ∧ b < sys.partition_count ∧
                (sys.rmt_nbrs a b).length ≠ 0 then
              bfs_gather_box (visitedOf ss a) (sys.rmt_nbrs a b) (ss.boxes a b)
            else ss.boxes a b,
          finished := ss.finished } := by
  intro l
  induction l with
  | nil =>
      intro _ ss
      rcases ss with ⟨ps, bx, fin⟩
      simp
  | cons p t ih =>
      intro hnd ss
      rw [List.nodup_cons] at hnd
      rw [List.foldl_cons, bfs_gather_eq, ih hnd.2]
      rcases ss with ⟨ps, bx, fin⟩
      simp only
      congr 1
      funext a b
      by_cases hap : a = p
      · subst hap
        have hat : a ∉ t := hnd.1
        simp only [visitedOf_mk, List.mem_cons]
        split_ifs with h1 h2 h3 h4 <;>
          first
            | rfl
            | (exact absurd h1.1 hat)
            | (exact absurd rfl (by tauto))
            | (exfalso; tauto)
      · have hat : a ∈ p :: t ↔ a ∈ t := by
          rw [List.mem_cons]
          exact ⟨fun h => h.resolve_left hap, Or.inr⟩
        simp only [visitedOf_mk, hat]
        split_ifs with h1 h2 h3 h4 <;>
          first
            | rfl
            | (exact absurd h2.1 hap)
            | (exact absurd h3.1 hap)
            | (exact absurd h4.1 hap)
            | (exfalso; tauto)

/-- The per-partition state created by the init callback. -/
def init_state (sp sv p : Nat) : bfs_state_t :=
  { cost := fun v => if p = sp ∧ v = sv then 0 else INF_COST,
    visited := if p = sp then {sv} else ∅,
    frontier_cur := ∅,
    last_visited := ∅,
    level := 0 }

/-- The init callback restated through init_state. -/
theorem bfs_init_eq (sys : System) (sp sv p : Nat) (ss : SysState) :
    bfs_init sys sp sv p ss =
      if vcount sys p = 0 then ss
      else
        { ss with
            pstate := Function.update ss.pstate p (some (init_state sp sv p)),
            boxes := fun a b =>
              if a = p ∧ b ≠ p ∧ (sys.rmt_nbrs p b).length ≠ 0 then ∅
              else ss.boxes a b } := rfl

/-- The init phase over a list of distinct partitions in closed form. -/
theorem inits_fold_char (sys : System) (sp sv : Nat) :
    ∀ (l : List Nat), l.Nodup → ∀ (ss : SysState),
      l.foldl (fun t p => bfs_init sys sp sv p t) ss =
        { pstate := fun q =>
            if q ∈ l ∧ vcount sys q ≠ 0 then some (init_state sp sv q)
            else ss.pstate q,
          boxes := fun a b =>
            if a ∈ l ∧ vcount sys a ≠ 0 ∧ b ≠ a ∧
                (sys.rmt_nbrs a b).length ≠ 0 then ∅
            else ss.boxes a b,
          finished := ss.finished } := by
  intro l
  induction l with
  | nil =>
      intro _ ss
      rcases ss with ⟨ps, bx, fin⟩
      simp
  | cons p t ih =>
      intro hnd ss
      rw [List.nodup_cons] at hnd
      rw [List.foldl_cons, bfs_init_eq]
      by_cases h0 : vcount sys p = 0
      · rw [if_pos h0, ih hnd.2]
        rcases ss with ⟨ps, bx, fin⟩
        simp only
        congr 1
        · funext q
          by_cases hq : q = p
          · subst hq
            have hqt : q ∉ t := hnd.1
            simp only [List.mem_cons]
            split_ifs with h1 h2 <;>
              first
                | rfl
                | (exfalso; tauto)
          · have hmem : q ∈ p :: t ↔ q ∈ t := by
              rw [List.mem_cons]
              exact ⟨fun h => h.resolve_left hq, Or.inr⟩
            simp only [hmem]
        · funext a b
          by_cases ha : a = p
          · subst ha
            have hat : a ∉ t := hnd.1
            simp only [List.mem_cons]
            split_ifs with h1 h2 <;>
              first
                | rfl
                | (exfalso; tauto)
          · have hmem : a ∈ p :: t ↔ a ∈ t := by
              rw [List.mem_cons]
              exact ⟨fun h => h.resolve_left ha, Or.inr⟩
            simp only [hmem]
      · rw [if_neg h0, ih hnd.2]
        rcases ss with ⟨ps, bx, fin⟩
        simp only
        congr 1
        · funext q
          by_cases hq : q = p
          · subst hq
            have hqt : q ∉ t := hnd.1
            simp only [List.mem_cons, Function.update_same]
            split_ifs with h1 h2 <;>
              first
                | rfl
                | (exfalso; tauto)
          · have hmem : q ∈ p :: t ↔ q ∈ t := by
              rw [List.mem_cons]
              exact ⟨fun h => h.resolve_left hq, Or.inr⟩
            simp only [hmem, Function.update_noteq hq]
        · funext a b
          by_cases ha : a = p
          · subst ha
            have hat : a ∉ t := hnd.1
            simp only [List.mem_cons]
            split_ifs with h1 h2 h3 <;>
              first
                | rfl
                | (exfalso; tauto)
          · have hmem : a ∈ p :: t ↔ a ∈ t := by
              rw [List.mem_cons]
              exact ⟨fun h => h.resolve_left ha, Or.inr⟩
            simp only [hmem]
            split_ifs with h1 h2 h3 <;>
              first
                | rfl
                | (exact absurd h2.1 ha)
                | (exact absurd h3.1 ha)
                | (exfalso; tauto)

/-! ### Well-formedness accessors -/

theorem wf_ids {sys : System} (h : sysWF sys) :
    ∀ p < sys.partition_count, (partAt sys p).id = p := h.2.1

theorem wf_maplen {sys : System} (h : sysWF sys) :
    ∀ p < sys.partition_count, (partAt sys p).map.length = vcount sys p :=
  h.2.2.1

theorem wf_maplt {sys : System} (h : sysWF sys) :
    ∀ p < sys.partition_count, ∀ v < vcount sys p, gmap sys p v < sys.N :=
  h.2.2.2.1

theorem wf_surj {sys : System} (h : sysWF sys) :
    ∀ u < sys.N, ∃ p < sys.partition_count, ∃ v < vcount sys p,
      gmap sys p v = u := h.2.2.2.2.1

theorem wf_injp {sys : System} (h : sysWF sys) :
    ∀ p < sys.partition_count, ∀ v < vcount sys p,
      ∀ q < sys.partition_count, ∀ w < vcount sys q,
        gmap sys p v = gmap sys q w → p = q := h.2.2.2.2.2.1

theorem wf_injv {sys : System} (h : sysWF sys) :
    ∀ p < sys.partition_count, ∀ v < vcount sys p,
      ∀ q < sys.partition_count, ∀ w < vcount sys q,
        gmap sys p v = gmap sys q w → v = w := h.2.2.2.2.2.2.1

theorem wf_edge {sys : System} (h : sysWF sys) :
    ∀ p < sys.partition_count, ∀ v < vcount sys p,
      ∀ e ∈ neighbors (partAt sys p).subgraph v, edgeOK sys p e = true :=
  h.2.2.2.2.2.2.2.1

theorem wf_tbl {sys : System} (h : sysWF sys) :
    ∀ p < sys.partition_count, ∀ q < sys.partition_count,
      ∀ x ∈ sys.rmt_nbrs p q, x < vcount sys p := h.2.2.2.2.2.2.2.2.1

theorem wf_ecount {sys : System} (h : sysWF sys) :
    sys.edge_count = ((List.range sys.partition_count).map
      (fun p => (partAt sys p).subgraph.edges.length)).sum :=
  h.2.2.2.2.2.2.2.2.2.1

theorem wf_symm {sys : System} (h : sysWF sys) :
    ∀ u < sys.N, ∀ w < sys.N, globalAdj sys u w → globalAdj sys w u :=
  h.2.2.2.2.2.2.2.2.2.2

/-! ### Adjacency lemmas -/

theorem globalAdj_intro (sys : System) {p v : Nat}
    (hp : p < sys.partition_count) (hv : v < vcount sys p)
    {e : Nat × Nat} (he : e ∈ neighbors (partAt sys p).subgraph v) :
    globalAdj sys (gmap sys p v) (decodeEdge sys p e) := by
  unfold globalAdj globalAdjB
  rw [List.any_eq_true]
  refine ⟨p, List.mem_range.mpr hp, ?_⟩
  rw [List.any_eq_true]
  refine ⟨v, List.mem_range.mpr hv, ?_⟩
  rw [Bool.and_eq_true]
  constructor
  · exact decide_eq_true rfl
  · rw [List.any_eq_true]
    exact ⟨e, he, decide_eq_true rfl⟩

theorem globalAdj_elim {sys : System} {u w : Nat} (h : globalAdj sys u w) :
    ∃ p < sys.partition_count, ∃ v < vcount sys p,
      gmap sys p v = u ∧
        ∃ e ∈ neighbors (partAt sys p).subgraph v, decodeEdge sys p e = w := by
  unfold globalAdj globalAdjB at h
  rw [List.any_eq_true] at h
  obtain ⟨p, hp, h⟩ := h
  rw [List.any_eq_true] at h
  obtain ⟨v, hv, h⟩ := h
  rw [Bool.and_eq_true] at h
  obtain ⟨h1, h2⟩ := h
  rw [List.any_eq_true] at h2
  obtain ⟨e, he, h3⟩ := h2
  exact ⟨p, List.mem_range.mp hp, v, List.mem_range.mp hv,
    of_decide_eq_true h1, e, he, of_decide_eq_true h3⟩

/-- Under well-formedness a decoded edge destination is a real global
vertex id. -/
theorem decode_lt {sys : System} (hwf : sysWF sys) {p v : Nat}
    (hp : p < sys.partition_count) (hv : v < vcount sys p)
    {e : Nat × Nat} (he : e ∈ neighbors (partAt sys p).subgraph v) :
    decodeEdge sys p e < sys.N := by
  have hok := wf_edge hwf p hp v hv e he
  unfold edgeOK at hok
  unfold decodeEdge
  by_cases h1 : e.1 = p
  · rw [if_pos h1] at hok ⊢
    exact wf_maplt hwf p hp e.2 (of_decide_eq_true hok)
  · rw [if_neg h1] at hok ⊢
    rw [Bool.and_eq_true] at hok
    have hq : e.1 < sys.partition_count := of_decide_eq_true hok.1
    have hlen : e.2 < (sys.rmt_nbrs e.1 p).length := of_decide_eq_true hok.2
    have hmem : (sys.rmt_nbrs e.1 p).getD e.2 0 ∈ sys.rmt_nbrs e.1 p := by
      rw [List.getD_eq_getElem?_getD, List.getElem?_eq_getElem hlen]
      exact List.getElem_mem hlen
    have hx : (sys.rmt_nbrs e.1 p).getD e.2 0 < vcount sys e.1 :=
      wf_tbl hwf e.1 hq p hp _ hmem
    exact wf_maplt hwf e.1 hq _ hx

/-- Both endpoints of a well-formed adjacency are in range. -/
theorem adj_lt {sys : System} (hwf : sysWF sys) {u w : Nat}
    (h : globalAdj sys u w) : u < sys.N ∧ w < sys.N := by
  obtain ⟨p, hp, v, hv, hgu, e, he, hgw⟩ := globalAdj_elim h
  constructor
  · rw [← hgu]
    exact wf_maplt hwf p hp v hv
  · rw [← hgw]
    exact decode_lt hwf hp hv he

/-! ### Ball lemmas -/

theorem mem_ball_succ_iff (sys : System) (src w k : Nat) :
    w ∈ ball sys src (k + 1) ↔
      w ∈ ball sys src k ∨
        (w < sys.N ∧ ∃ u ∈ ball sys src k, globalAdj sys u w) := by
  show w ∈ ball sys src k ∪ (Finset.range sys.N).filter _ ↔ _
  rw [Finset.mem_union, Finset.mem_filter, Finset.mem_range]

theorem ball_mono_succ (sys : System) (src k : Nat) :
    ball sys src k ⊆ ball sys src (k + 1) := by
  intro x hx
  rw [mem_ball_succ_iff]
  exact Or.inl hx

theorem ball_mono (sys : System) (src : Nat) {j k : Nat} (h : j ≤ k) :
    ball sys src j ⊆ ball sys src k := by
  induction k with
  | zero =>
      have : j = 0 := Nat.le_zero.mp h
      subst this
      exact fun x hx => hx
  | succ k ih =>
      rcases Nat.lt_or_ge j (k + 1) with hlt | hge
      · exact fun x hx =>
          ball_mono_succ sys src k (ih (Nat.lt_succ_iff.mp hlt) hx)
      · have : j = k + 1 := Nat.le_antisymm h hge
        subst this
        exact fun x hx => hx

theorem src_mem_ball (sys : System) (src k : Nat) : src ∈ ball sys src k :=
  ball_mono sys src (Nat.zero_le k) (Finset.mem_singleton_self src)

theorem ball_subset_range (sys : System) {src : Nat} (hsrc : src < sys.N)
    (k : Nat) : ball sys src k ⊆ Finset.range sys.N := by
  induction k with
  | zero =>
      intro x hx
      have hx' : x ∈ ({src} : Finset Nat) := hx
      rw [Finset.mem_singleton] at hx'
      subst hx'
      exact Finset.mem_range.mpr hsrc
  | succ k ih =>
      intro x hx
      rcases (mem_ball_succ_iff sys src x k).mp hx with h | h
      · exact ih h
      · exact Finset.mem_range.mpr h.1

theorem mem_ball_of_adj {sys : System} {src u w k : Nat}
    (hu : u ∈ ball sys src k) (ha : globalAdj sys u w) (hw : w < sys.N) :
    w ∈ ball sys src (k + 1) := by
  rw [mem_ball_succ_iff]
  exact Or.inr ⟨hw, u, hu, ha⟩

theorem ball_stab (sys : System) (src : Nat) {k : Nat}
    (h : ball sys src (k + 1) = ball sys src k) :
    ∀ j, k ≤ j → ball sys src j = ball sys src k := by
  intro j hj
  induction j with
  | zero =>
      have : k = 0 := Nat.le_zero.mp hj
      subst this
      rfl
  | succ j ih =>
      rcases Nat.lt_or_ge k (j + 1) with hlt | hge
      · have hjk : k ≤ j := Nat.lt_succ_iff.mp hlt
        have hprev := ih hjk
        show ball sys src j ∪ _ = ball sys src k
        have : ball sys src j = ball sys src k := hprev
        calc ball sys src j ∪ (Finset.range sys.N).filter
              (fun w => ∃ u ∈ ball sys src j, globalAdj sys u w)
            = ball sys src k ∪ (Finset.range sys.N).filter
              (fun w => ∃ u ∈ ball sys src k, globalAdj sys u w) := by
              rw [this]
          _ = ball sys src (k + 1) := rfl
          _ = ball sys src k := h
      · have : j + 1 = k := Nat.le_antisymm hge hj
        rw [this]

theorem ball_chain_card (sys : System) (src : Nat) :
    ∀ m, (∀ j, j < m → ball sys src (j + 1) ≠ ball sys src j) →
      m + 1 ≤ (ball sys src m).card := by
  intro m
  induction m with
  | zero =>
      intro _
      have : ball sys src 0 = {src} := rfl
      rw [this, Finset.card_singleton]
  | succ m ih =>
      intro h
      have hm : m + 1 ≤ (ball sys src m).card :=
        ih (fun j hj => h j (Nat.lt_succ_of_lt hj))
      have hne : ball sys src (m + 1) ≠ ball sys src m :=
        h m (Nat.lt_succ_self m)
      have hss : ball sys src m ⊂ ball sys src (m + 1) :=
        Finset.ssubset_iff_subset_ne.mpr
          ⟨ball_mono_succ sys src m, fun hc => hne hc.symm⟩
      have := Finset.card_lt_card hss
      omega

/-- A vertex that enters the ball at radius k + 1 forces k + 2 ≤ N. -/
theorem new_vertex_bound {sys : System} {src u k : Nat} (hsrc : src < sys.N)
    (hu : u ∈ ball sys src (k + 1)) (hnu : u ∉ ball sys src k) :
    k + 2 ≤ sys.N := by
  have hchain : ∀ j, j < k + 1 → ball sys src (j + 1) ≠ ball sys src j := by
    intro j hj heq
    have hstab := ball_stab sys src heq
    have h1 : ball sys src k = ball sys src j := hstab k (by omega)
    have h2 : ball sys src (k + 1) = ball sys src j := hstab (k + 1) (by omega)
    rw [h2, ← h1] at hu
    exact hnu hu
  have hcard := ball_chain_card sys src (k + 1) hchain
  have hsub := Finset.card_le_card (ball_subset_range sys hsrc (k + 1))
  rw [Finset.card_range] at hsub
  omega

/-! ### Walks and balls -/

theorem walk_snoc {adj : Nat → Nat → Prop} {u v w n : Nat}
    (hw : Walk adj u v n) (ha : adj v w) : Walk adj u w (n + 1) := by
  induction hw with
  | refl u => exact Walk.cons ha (Walk.refl w)
  | cons hadj _ ih => exact Walk.cons hadj (ih ha)

theorem walk_of_mem_ball {sys : System} {src : Nat} :
    ∀ {k v : Nat}, v ∈ ball sys src k →
      ∃ n ≤ k, Walk (globalAdj sys) src v n := by
  intro k
  induction k with
  | zero =>
      intro v hv
      have hv' : v ∈ ({src} : Finset Nat) := hv
      rw [Finset.mem_singleton] at hv'
      subst hv'
      exact ⟨0, Nat.le_refl 0, Walk.refl v⟩
  | succ k ih =>
      intro v hv
      rcases (mem_ball_succ_iff sys src v k).mp hv with h | ⟨_, u, hu, ha⟩
      · obtain ⟨n, hn, hwalk⟩ := ih h
        exact ⟨n, Nat.le_succ_of_le hn, hwalk⟩
      · obtain ⟨n, hn, hwalk⟩ := ih hu
        exact ⟨n + 1, Nat.succ_le_succ hn, walk_snoc hwalk ha⟩

theorem mem_ball_add_of_walk {sys : System} (hwf : sysWF sys) {src : Nat}
    {a b n : Nat} (hw : Walk (globalAdj sys) a b n) :
    ∀ {k : Nat}, a ∈ ball sys src k → b ∈ ball sys src (k + n) := by
  induction hw with
  | refl u => intro k hk; exact hk
  | cons hadj htail ih =>
      intro k hk
      rename_i x y z m
      have hy : y ∈ ball sys src (k + 1) :=
        mem_ball_of_adj hk hadj (adj_lt hwf hadj).2
      have := ih hy
      have harith : k + 1 + m = k + (m + 1) := by omega
      rw [harith] at this
      exact this

theorem mem_ball_of_walk {sys : System} (hwf : sysWF sys) {src v n : Nat}
    (hw : Walk (globalAdj sys) src v n) : v ∈ ball sys src n := by
  have h0 : src ∈ ball sys src 0 := Finset.mem_singleton_self src
  have := mem_ball_add_of_walk hwf hw h0
  simpa using this

/-! ### Entry level -/

theorem entryLevel_le (sys : System) (src u : Nat) :
    ∀ b, entryLevel sys src u b ≤ b := by
  intro b
  induction b with
  | zero => exact Nat.le_refl 0
  | succ b ih =>
      unfold entryLevel
      by_cases h : u ∈ ball sys src b
      · rw [if_pos h]
        exact Nat.le_succ_of_le ih
      · rw [if_neg h]

theorem mem_ball_entryLevel (sys : System) (src u : Nat) :
    ∀ {b}, u ∈ ball sys src b → u ∈ ball sys src (entryLevel sys src u b) := by
  intro b
  induction b with
  | zero => intro h; exact h
  | succ b ih =>
      intro h
      unfold entryLevel
      by_cases hb : u ∈ ball sys src b
      · rw [if_pos hb]
        exact ih hb
      · rw [if_neg hb]
        exact h

theorem entryLevel_min (sys : System) (src u : Nat) :
    ∀ {b b'}, u ∈ ball sys src b' → b' ≤ b → entryLevel sys src u b ≤ b' := by
  intro b
  induction b with
  | zero => intro b' _ _; exact Nat.zero_le b'
  | succ b ih =>
      intro b' hmem hle
      unfold entryLevel
      by_cases hb : u ∈ ball sys src b
      · rw [if_pos hb]
        rcases Nat.lt_or_ge b' (b + 1) with hlt | hge
        · exact ih hmem (Nat.lt_succ_iff.mp hlt)
        · exact Nat.le_trans (Nat.le_trans (entryLevel_le sys src u b)
            (Nat.le_succ b)) (Nat.le_antisymm hle hge ▸ Nat.le_refl _)
      · rw [if_neg hb]
        rcases Nat.lt_or_ge b' (b + 1) with hlt | hge
        · exact absurd (ball_mono sys src (Nat.lt_succ_iff.mp hlt) hmem) hb
        · exact Nat.le_antisymm hle hge ▸ Nat.le_refl _

/-- The entry level of a vertex entering the ball exactly at radius k
(with k within the search bound) is k. -/
theorem entryLevel_eq (sys : System) (src u : Nat) {k b : Nat}
    (h1 : u ∈ ball sys src k) (h2 : k = 0 ∨ u ∉ ball sys src (k - 1))
    (hk : k ≤ b) : entryLevel sys src u b = k := by
  have hmin : entryLevel sys src u b ≤ k := entryLevel_min sys src u h1 hk
  rcases Nat.lt_or_ge (entryLevel sys src u b) k with hlt | hge
  · exfalso
    rcases h2 with h2 | h2
    · omega
    · have hball : u ∈ ball sys src (entryLevel sys src u b) :=
        mem_ball_entryLevel sys src u (ball_mono sys src hk h1)
      have : u ∈ ball sys src (k - 1) :=
        ball_mono sys src (by omega) hball
      exact h2 this
  · exact Nat.le_antisymm hmin hge

/-! ### The superstep invariant -/

/-- State invariant at the start of superstep d + 2: every non-empty
partition's visited set is the radius-d ball restricted to it, costs
record ball entry levels, the tracker snapshot is the radius-(d-1)
ball, the level counter is d, and the mailbox buffers publish the
radius-d ball. -/
def BfsInv (sys : System) (src d : Nat) (ss : SysState) : Prop :=
  (∀ p, p < sys.partition_count → vcount sys p ≠ 0 →
    ∃ st, ss.pstate p = some st ∧
      st.level = d ∧
      st.visited ⊆ Finset.range (vcount sys p) ∧
      st.last_visited ⊆ Finset.range (vcount sys p) ∧
      (∀ v, v < vcount sys p →
        (v ∈ st.visited ↔ gmap sys p v ∈ ball sys src d)) ∧
      (∀ v, v < vcount sys p →
        (v ∈ st.last_visited ↔ 1 ≤ d ∧ gmap sys p v ∈ ball sys src (d - 1))) ∧
      (∀ v, v < vcount sys p →
        st.cost v = if gmap sys p v ∈ ball sys src d
          then entryLevel sys src (gmap sys p v) sys.N else INF_COST)) ∧
  (∀ p q idx, idx ∈ ss.boxes p q ↔
    (p < sys.partition_count ∧ q < sys.partition_count ∧ q ≠ p ∧
      idx < (sys.rmt_nbrs p q).length ∧
      gmap sys p ((sys.rmt_nbrs p q).getD idx 0) ∈ ball sys src d))

/-- Under the invariant, an unvisited vertex's neighbour scan succeeds
exactly when the vertex lies in the next ball: this is the key step of
the bottom-up argument, and the only place where symmetry of the
adjacency (undirectedness) is needed. -/
theorem scan_ball_iff (sys : System) (src d p v : Nat) (ss : SysState)
    (st : bfs_state_t) (hwf : sysWF sys) (hsrc : src < sys.N)
    (hp : p < sys.partition_count) (hv : v < vcount sys p)
    (hinvV : ∀ w, w < vcount sys p →
      (w ∈ st.visited ↔ gmap sys p w ∈ ball sys src d))
    (hinvL : ∀ w, w < vcount sys p →
      (w ∈ st.last_visited ↔ 1 ≤ d ∧ gmap sys p w ∈ ball sys src (d - 1)))
    (hbox : ∀ a b idx, idx ∈ ss.boxes a b ↔
      (a < sys.partition_count ∧ b < sys.partition_count ∧ b ≠ a ∧
        idx < (sys.rmt_nbrs a b).length ∧
        gmap sys a ((sys.rmt_nbrs a b).getD idx 0) ∈ ball sys src d))
    (hun : gmap sys p v ∉ ball sys src d) :
    (bfs_bu_scan
        (frontier_view (partAt sys p) ss.boxes (frontier_update_bitmap st))
        (neighbors (partAt sys p).subgraph v) = true) ↔
      gmap sys p v ∈ ball sys src (d + 1) := by
  have hid : (partAt sys p).id = p := wf_ids hwf p hp
  have hgvlt : gmap sys p v < sys.N := wf_maplt hwf p hp v hv
  rw [bfs_bu_scan_iff]
  constructor
  · rintro ⟨e, he, hbit⟩
    have hadj : globalAdj sys (gmap sys p v) (decodeEdge sys p e) :=
      globalAdj_intro sys hp hv he
    have hok := wf_edge hwf p hp v hv e he
    have hdec : decodeEdge sys p e ∈ ball sys src d := by
      unfold frontier_view at hbit
      rw [hid] at hbit
      by_cases h1 : e.1 = p
      · rw [if_pos h1] at hbit
        unfold frontier_update_bitmap at hbit
        simp only [bitmap_is_set, decide_eq_true_eq, Finset.mem_sdiff] at hbit
        have he2 : e.2 < vcount sys p := by
          unfold edgeOK at hok
          rw [if_pos h1] at hok
          exact of_decide_eq_true hok
        have := (hinvV e.2 he2).mp hbit.1
        unfold decodeEdge
        rw [if_pos h1]
        exact this
      · rw [if_neg h1] at hbit
        simp only [bitmap_is_set, decide_eq_true_eq] at hbit
        rw [hbox] at hbit
        unfold decodeEdge
        rw [if_neg h1]
        exact hbit.2.2.2.2
    have hlt : decodeEdge sys p e < sys.N := decode_lt hwf hp hv he
    have hsym : globalAdj sys (decodeEdge sys p e) (gmap sys p v) :=
      wf_symm hwf _ hgvlt _ hlt hadj
    exact mem_ball_of_adj hdec hsym hgvlt
  · intro hin
    rcases (mem_ball_succ_iff sys src _ d).mp hin with h | ⟨_, u, hu, hadj⟩
    · exact absurd h hun
    have hult : u < sys.N := (adj_lt hwf hadj).1
    have hback : globalAdj sys (gmap sys p v) u :=
      wf_symm hwf u hult _ hgvlt hadj
    obtain ⟨p', hp', v', hv', hg', e, he, hdec⟩ := globalAdj_elim hback
    have hpeq : p' = p := wf_injp hwf p' hp' v' hv' p hp v hv hg'
    subst hpeq
    have hveq : v' = v := wf_injv hwf p' hp' v' hv' p' hp' v hv hg'
    subst hveq
    refine ⟨e, he, ?_⟩
    have hok := wf_edge hwf p' hp' v' hv' e he
    unfold frontier_view
    rw [hid]
    by_cases h1 : e.1 = p'
    · rw [if_pos h1]
      unfold frontier_update_bitmap
      simp only [bitmap_is_set, decide_eq_true_eq, Finset.mem_sdiff]
      have he2 : e.2 < vcount sys p' := by
        unfold edgeOK at hok
        rw [if_pos h1] at hok
        exact of_decide_eq_true hok
      have hdecu : gmap sys p' e.2 = u := by
        unfold decodeEdge at hdec
        rw [if_pos h1] at hdec
        exact hdec
      constructor
      · exact (hinvV e.2 he2).mpr (hdecu ▸ hu)
      · intro hlast
        have := (hinvL e.2 he2).mp hlast
        rw [hdecu] at this
        have hball : gmap sys p' v' ∈ ball sys src ((d - 1) + 1) :=
          mem_ball_of_adj this.2 hadj hgvlt
        have harith : d - 1 + 1 = d := by omega
        rw [harith] at hball
        exact hun hball
    · rw [if_neg h1]
      simp only [bitmap_is_set, decide_eq_true_eq]
      rw [hbox]
      unfold edgeOK at hok
      rw [if_neg h1, Bool.and_eq_true] at hok
      have hq : e.1 < sys.partition_count := of_decide_eq_true hok.1
      have hlen : e.2 < (sys.rmt_nbrs e.1 p').length := of_decide_eq_true hok.2
      have hdecu : gmap sys e.1 ((sys.rmt_nbrs e.1 p').getD e.2 0) = u := by
        unfold decodeEdge at hdec
        rw [if_neg h1] at hdec
        exact hdec
      exact ⟨hq, hp', fun hc => h1 hc.symm, hlen, hdecu ▸ hu⟩

/-- One non-empty partition's execution callback at superstep d + 2,
under the invariant: the new state realizes the radius-(d+1) ball, and
the keep signal is true exactly when the partition found nothing new. -/
theorem stepRes_char (sys : System) (src d p : Nat) (ss : SysState)
    (st : bfs_state_t) (hwf : sysWF sys) (hsrc : src < sys.N)
    (hp : p < sys.partition_count) (hc : vcount sys p ≠ 0)
    (hlvl : st.level = d)
    (hvsub : st.visited ⊆ Finset.range (vcount sys p))
    (hinvV : ∀ w, w < vcount sys p →
      (w ∈ st.visited ↔ gmap sys p w ∈ ball sys src d))
    (hinvL : ∀ w, w < vcount sys p →
      (w ∈ st.last_visited ↔ 1 ≤ d ∧ gmap sys p w ∈ ball sys src (d - 1)))
    (hinvC : ∀ w, w < vcount sys p →
      st.cost w = if gmap sys p w ∈ ball sys src d
        then entryLevel sys src (gmap sys p w) sys.N else INF_COST)
    (hbox : ∀ a b idx, idx ∈ ss.boxes a b ↔
      (a < sys.partition_count ∧ b < sys.partition_count ∧ b ≠ a ∧
        idx < (sys.rmt_nbrs a b).length ∧
        gmap sys a ((sys.rmt_nbrs a b).getD idx 0) ∈ ball sys src d)) :
    ∃ st', stepRes sys (d + 2) p ss.boxes (some st) = some st' ∧
      st'.level = d + 1 ∧
      st'.visited ⊆ Finset.range (vcount sys p) ∧
      st'.last_visited ⊆ Finset.range (vcount sys p) ∧
      (∀ v, v < vcount sys p →
        (v ∈ st'.visited ↔ gmap sys p v ∈ ball sys src (d + 1))) ∧
      (∀ v, v < vcount sys p →
        (v ∈ st'.last_visited ↔
          1 ≤ d + 1 ∧ gmap sys p v ∈ ball sys src (d + 1 - 1))) ∧
      (∀ v, v < vcount sys p →
        st'.cost v = if gmap sys p v ∈ ball sys src (d + 1)
          then entryLevel sys src (gmap sys p v) sys.N else INF_COST) ∧
      (stepKeeps sys (d + 2) p ss.boxes (some st) = true ↔
        ∀ v, v < vcount sys p → gmap sys p v ∈ ball sys src (d + 1) →
          gmap sys p v ∈ ball sys src d) := by
  have hsup : d + 2 ≠ 1 := by omega
  set par := partAt sys p with hpar
  set st1 := frontier_update_bitmap st with hst1
  set fr := frontier_view par ss.boxes st1 with hfr
  have hcount : par.subgraph.vertex_count = vcount sys p := rfl
  have hbec : ∀ v, v < vcount sys p →
      (becomes_visited par.subgraph fr st1 v = true ↔
        (gmap sys p v ∉ ball sys src d ∧
          gmap sys p v ∈ ball sys src (d + 1))) := by
    intro v hv
    unfold becomes_visited
    rw [Bool.and_eq_true]
    have hvis1 : st1.visited = st.visited := rfl
    by_cases hmem : v ∈ st.visited
    · have h1 : (!bitmap_is_set st1.visited v) = false := by
        rw [hvis1]
        simp [bitmap_is_set, hmem]
      rw [h1]
      have hball : gmap sys p v ∈ ball sys src d := (hinvV v hv).mp hmem
      constructor
      · rintro ⟨hfalse, _⟩
        exact absurd hfalse (by simp)
      · rintro ⟨hnot, _⟩
        exact absurd hball hnot
    · have h1 : (!bitmap_is_set st1.visited v) = true := by
        rw [hvis1]
        simp [bitmap_is_set, hmem]
      rw [h1]
      have hun : gmap sys p v ∉ ball sys src d :=
        fun hc => hmem ((hinvV v hv).mpr hc)
      have hscan := scan_ball_iff sys src d p v ss st hwf hsrc hp hv
        hinvV hinvL hbox hun
      constructor
      · rintro ⟨_, hs⟩
        exact ⟨hun, hscan.mp hs⟩
      · rintro ⟨_, hin⟩
        exact ⟨rfl, hscan.mpr hin⟩
  have hres : stepRes sys (d + 2) p ss.boxes (some st) =
      some { (bfs_stepwise_cpu par ss.boxes st true).1 with
        level := (bfs_stepwise_cpu par ss.boxes st true).1.level + 1 } := by
    simp only [stepRes]
    rw [if_neg (show ¬ (partAt sys p).subgraph.vertex_count = 0 from hc),
      if_neg hsup]
  have hcpu : bfs_stepwise_cpu par ss.boxes st true =
      bfs_bu_step par fr st1 true := rfl
  rw [bfs_bu_step_char] at hcpu
  refine ⟨_, hres, ?_, ?_, ?_, ?_, ?_, ?_, ?_⟩
  · simp only [hcpu]
    show st.level + 1 = d + 1
    rw [hlvl]
  · simp only [hcpu]
    intro x hx
    rcases Finset.mem_union.mp hx with h | h
    · exact hvsub h
    · rw [hcount] at h
      exact (Finset.mem_filter.mp h).1
  · simp only [hcpu]
    exact hvsub
  · simp only [hcpu]
    intro v hv
    rw [Finset.mem_union, Finset.mem_filter, Finset.mem_range, hcount]
    constructor
    · rintro (h | ⟨_, hb⟩)
      · exact ball_mono_succ sys src d ((hinvV v hv).mp h)
      · exact ((hbec v hv).mp hb).2
    · intro hin
      by_cases hd : gmap sys p v ∈ ball sys src d
      · exact Or.inl ((hinvV v hv).mpr hd)
      · exact Or.inr ⟨hv, (hbec v hv).mpr ⟨hd, hin⟩⟩
  · simp only [hcpu]
    intro v hv
    have : d + 1 - 1 = d := by omega
    rw [this]
    constructor
    · intro h
      exact ⟨by omega, (hinvV v hv).mp h⟩
    · rintro ⟨_, h⟩
      exact (hinvV v hv).mpr h
  · simp only [hcpu]
    intro v hv
    rw [hcount]
    by_cases hbv : becomes_visited par.subgraph fr st1 v = true
    · rw [if_pos ⟨hv, hbv⟩]
      have ⟨hnot, hin⟩ := (hbec v hv).mp hbv
      rw [if_pos hin]
      have hbound : d + 2 ≤ sys.N := new_vertex_bound hsrc hin hnot
      have hlvl1 : st1.level = d := hlvl
      rw [hlvl1]
      exact (entryLevel_eq sys src _ hin (Or.inr (by simpa using hnot))
        (by omega)).symm
    · have hbvf : becomes_visited par.subgraph fr st1 v = false := by
        simpa using hbv
      rw [if_neg (fun hcond => hbv hcond.2)]
      have hcost1 : st1.cost = st.cost := rfl
      rw [hcost1, hinvC v hv]
      by_cases hd : gmap sys p v ∈ ball sys src d
      · rw [if_pos hd, if_pos (ball_mono_succ sys src d hd)]
      · rw [if_neg hd]
        have hnin : gmap sys p v ∉ ball sys src (d + 1) := by
          intro hc
          rw [(hbec v hv).mpr ⟨hd, hc⟩] at hbvf
          exact Bool.true_eq_false.mp hbvf
        rw [if_neg hnin]
  · simp only [stepKeeps]
    rw [if_neg (show ¬ (partAt sys p).subgraph.vertex_count = 0 from hc),
      if_neg hsup]
    rw [hcpu]
    simp only
    constructor
    · intro hkeep v hv hin
      by_contra hd
      have hb : becomes_visited par.subgraph fr st1 v = true :=
        (hbec v hv).mpr ⟨hd, hin⟩
      have : (List.range par.subgraph.vertex_count).any
          (becomes_visited par.subgraph fr st1) = true :=
        List.any_eq_true.mpr ⟨v, List.mem_range.mpr (hcount ▸ hv), hb⟩
      rw [if_pos this] at hkeep
      exact Bool.false_ne_true hkeep
    · intro hall
      have : (List.range par.subgraph.vertex_count).any
          (becomes_visited par.subgraph fr st1) = false := by
        rw [List.any_eq_false]
        intro v hv
        have hvlt : v < vcount sys p := hcount ▸ List.mem_range.mp hv
        intro hb
        have ⟨hnot, hin⟩ := (hbec v hvlt).mp hb
        exact hnot (hall v hvlt hin)
      rw [if_neg (by rw [this]; exact Bool.false_ne_true)]

/-- A nonzero mailbox table forces a nonzero owner partition. -/
theorem len_ne_zero_vcount {sys : System} (hwf : sysWF sys) {a b : Nat}
    (ha : a < sys.partition_count) (hb : b < sys.partition_count)
    (hlen : (sys.rmt_nbrs a b).length ≠ 0) : vcount sys a ≠ 0 := by
  rcases List.exists_mem_of_length_pos (Nat.pos_of_ne_zero hlen) with ⟨x, hx⟩
  have := wf_tbl hwf a ha b hb x hx
  omega

/-- One full superstep at level d + 2 from an invariant state: the
invariant advances to d + 1, and the engine observes a quiescent
superstep exactly when the ball has stopped growing. -/
theorem round_char (sys : System) (src d : Nat) (ss : SysState)
    (hwf : sysWF sys) (hsrc : src < sys.N)
    (hinv : BfsInv sys src d ss) :
    BfsInv sys src (d + 1)
        (engine_round sys (d + 2) { ss with finished := true }) ∧
    ((engine_round sys (d + 2) { ss with finished := true }).finished = true ↔
      ball sys src (d + 1) = ball sys src d) := by
  obtain ⟨hpart, hbox⟩ := hinv
  have hboxT : ∀ a b idx, idx ∈ ss.boxes a b ↔
      (a < sys.partition_count ∧ b < sys.partition_count ∧ b ≠ a ∧
        idx < (sys.rmt_nbrs a b).length ∧
        gmap sys a ((sys.rmt_nbrs a b).getD idx 0) ∈ ball sys src d) := hbox
  -- per-partition advanced states
  have hstepped : ∀ p, p < sys.partition_count → vcount sys p ≠ 0 →
      ∃ st st', ss.pstate p = some st ∧
        stepRes sys (d + 2) p ss.boxes (some st) = some st' ∧
        st'.level = d + 1 ∧
        st'.visited ⊆ Finset.range (vcount sys p) ∧
        st'.last_visited ⊆ Finset.range (vcount sys p) ∧
        (∀ v, v < vcount sys p →
          (v ∈ st'.visited ↔ gmap sys p v ∈ ball sys src (d + 1))) ∧
        (∀ v, v < vcount sys p →
          (v ∈ st'.last_visited ↔
            1 ≤ d + 1 ∧ gmap sys p v ∈ ball sys src (d + 1 - 1))) ∧
        (∀ v, v < vcount sys p →
          st'.cost v = if gmap sys p v ∈ ball sys src (d + 1)
            then entryLevel sys src (gmap sys p v) sys.N else INF_COST) ∧
        (stepKeeps sys (d + 2) p ss.boxes (some st) = true ↔
          ∀ v, v < vcount sys p → gmap sys p v ∈ ball sys src (d + 1) →
            gmap sys p v ∈ ball sys src d) := by
    intro p hp hc
    obtain ⟨st, hst, hlvl, hvsub, _, hV, hL, hC⟩ := hpart p hp hc
    obtain ⟨st', h1, h2, h3, h4, h5, h6, h7, h8⟩ :=
      stepRes_char sys src d p ss st hwf hsrc hp hc hlvl hvsub hV hL hC hboxT
    exact ⟨st, st', hst, h1, h2, h3, h4, h5, h6, h7, h8⟩
  -- unfold the round
  unfold engine_round
  rw [steps_fold_char sys (d + 2) _ (List.nodup_range _),
    gathers_fold_char sys _ (List.nodup_range _)]
  simp only [List.mem_range]
  constructor
  · constructor
    · -- partition state clause of the new invariant
      intro p hp hc
      obtain ⟨st, st', hst, hres, h2, h3, h4, h5, h6, h7, _⟩ :=
        hstepped p hp hc
      refine ⟨st', ?_, h2, h3, h4, h5, h6, h7⟩
      simp only [hp, if_true, hst, hres]
    · -- boxes clause of the new invariant
      intro a b idx
      simp only
      by_cases hg : a < sys.partition_count ∧ b ≠ a ∧
          b < sys.partition_count ∧ (sys.rmt_nbrs a b).length ≠ 0
      · rw [if_pos hg, bfs_gather_box_mem]
        obtain ⟨ha, hba, hbpc, hlen⟩ := hg
        have hca : vcount sys a ≠ 0 := len_ne_zero_vcount hwf ha hbpc hlen
        obtain ⟨st, st', hst, hres, _, _, _, hV', _, _, _⟩ :=
          hstepped a ha hca
        have hvis : visitedOf
            { pstate := fun q =>
                if q < sys.partition_count then
                  stepRes sys (d + 2) q ss.boxes (ss.pstate q)
                else ss.pstate q,
              boxes := ss.boxes,
              finished := true && (List.range sys.partition_count).all
                (fun p => stepKeeps sys (d + 2) p ss.boxes (ss.pstate p)) } a =
            st'.visited := by
          unfold visitedOf
          simp only [ha, if_true, hst, hres]
        rw [hvis]
        constructor
        · rintro (h | ⟨hlt, hbit⟩)
          · rcases (hbox a b idx).mp h with ⟨_, _, _, hlt, hball⟩
            exact ⟨ha, hbpc, hba, hlt, ball_mono_succ sys src d hball⟩
          · have htbl : (sys.rmt_nbrs a b).getD idx 0 < vcount sys a := by
              refine wf_tbl hwf a ha b hbpc _ ?_
              rw [List.getD_eq_getElem?_getD, List.getElem?_eq_getElem hlt]
              exact List.getElem_mem hlt
            rw [bitmap_is_set, decide_eq_true_eq] at hbit
            exact ⟨ha, hbpc, hba, hlt, (hV' _ htbl).mp hbit⟩
        · rintro ⟨_, _, _, hlt, hball⟩
          right
          refine ⟨hlt, ?_⟩
          have htbl : (sys.rmt_nbrs a b).getD idx 0 < vcount sys a := by
            refine wf_tbl hwf a ha b hbpc _ ?_
            rw [List.getD_eq_getElem?_getD, List.getElem?_eq_getElem hlt]
            exact List.getElem_mem hlt
          rw [bitmap_is_set, decide_eq_true_eq]
          exact (hV' _ htbl).mpr hball
      · rw [if_neg hg]
        rw [hbox]
        constructor
        · rintro ⟨ha, hb, hba, hlt, hball⟩
          exact absurd ⟨ha, hba, hb, by omega⟩ hg
        · rintro ⟨ha, hb, hba, hlt, hball⟩
          exact absurd ⟨ha, hba, hb, by omega⟩ hg
  · -- the finished flag versus ball stabilization
    show (true && _) = true ↔ _
    rw [Bool.true_and, List.all_eq_true]
    constructor
    · intro hall
      apply Finset.Subset.antisymm
      · intro u hu
        by_contra hnu
        have huN : u < sys.N :=
          Finset.mem_range.mp (ball_subset_range sys hsrc (d + 1) hu)
        obtain ⟨p, hp, v, hv, hg⟩ := wf_surj hwf u huN
        have hc : vcount sys p ≠ 0 := by omega
        obtain ⟨st, st', hst, _, _, _, _, _, _, _, hkeep⟩ := hstepped p hp hc
        have := hkeep.mp (by
          have := hall p (List.mem_range.mpr hp)
          rw [hst] at this
          exact this) v hv (hg ▸ hu)
        rw [hg] at this
        exact hnu this
      · exact ball_mono_succ sys src d
    · intro heq p hmem
      have hp : p < sys.partition_count := List.mem_range.mp hmem
      by_cases hc : vcount sys p = 0
      · simp only [stepKeeps]
        rw [if_pos (show (partAt sys p).subgraph.vertex_count = 0 from hc)]
      · obtain ⟨st, st', hst, _, _, _, _, _, _, _, hkeep⟩ := hstepped p hp hc
        rw [hst]
        exact hkeep.mpr (fun v hv hin => heq ▸ hin)

/-! ### The engine loop reaches the fixed point -/

theorem loop_invariant (sys : System) (src : Nat) (hwf : sysWF sys)
    (hsrc : src < sys.N) :
    ∀ fuel d ss, BfsInv sys src d ss → 1 ≤ fuel →
      sys.N + 1 ≤ fuel + d →
      ∃ d', d ≤ d' ∧ ball sys src (d' + 1) = ball sys src d' ∧
        BfsInv sys src (d' + 1) (engine_loop sys fuel (d + 2) ss) ∧
        (engine_loop sys fuel (d + 2) ss).finished = true := by
  intro fuel
  induction fuel with
  | zero => intro d ss _ h1 _; omega
  | succ f ih =>
      intro d ss hinv _ hfuel
      obtain ⟨hinv', hflag⟩ := round_char sys src d ss hwf hsrc hinv
      have hunfold : engine_loop sys (f + 1) (d + 2) ss =
          (if (engine_round sys (d + 2)
                { ss with finished := true }).finished = true then
            engine_round sys (d + 2) { ss with finished := true }
          else
            engine_loop sys f (d + 2 + 1)
              (engine_round sys (d + 2) { ss with finished := true })) := rfl
      by_cases hfin : (engine_round sys (d + 2)
          { ss with finished := true }).finished = true
      · rw [hunfold, if_pos hfin]
        exact ⟨d, Nat.le_refl d, hflag.mp hfin, hinv', hfin⟩
      · rw [hunfold, if_neg hfin]
        have hne : ball sys src (d + 1) ≠ ball sys src d :=
          fun h => hfin (hflag.mpr h)
        have hss : ball sys src d ⊂ ball sys src (d + 1) :=
          Finset.ssubset_iff_subset_ne.mpr
            ⟨ball_mono_succ sys src d, fun h => hne h.symm⟩
        obtain ⟨u, hu, hnu⟩ := Finset.exists_of_ssubset hss
        have hbound : d + 2 ≤ sys.N := new_vertex_bound hsrc hu hnu
        have harith : d + 2 + 1 = (d + 1) + 2 := by omega
        rw [harith]
        obtain ⟨d', hd', heq, hi, hf⟩ :=
          ih (d + 1) _ hinv' (by omega) (by omega)
        exact ⟨d', by omega, heq, hi, hf⟩

/-- Once the ball has stabilized it holds every ball. -/
theorem ball_final (sys : System) (src : Nat) {d' : Nat}
    (heq : ball sys src (d' + 1) = ball sys src d') :
    ∀ k, ball sys src k ⊆ ball sys src d' := by
  intro k
  rcases Nat.lt_or_ge d' k with hk | hk
  · rw [ball_stab sys src heq k (by omega)]
  · exact ball_mono sys src hk

/-! ### Source decomposition -/

theorem firstIdx_some {u : Nat} :
    ∀ {l : List Nat} {v : Nat}, firstIdx u l = some v →
      v < l.length ∧ l.getD v 0 = u := by
  intro l
  induction l with
  | nil => intro v h; exact absurd h (by simp [firstIdx])
  | cons x t ih =>
      intro v h
      unfold firstIdx at h
      by_cases hx : x = u
      · rw [if_pos hx] at h
        have : v = 0 := by
          have := Option.some.inj h
          omega
        subst this
        exact ⟨Nat.succ_pos _, hx⟩
      · rw [if_neg hx] at h
        cases hrec : firstIdx u t with
        | none => rw [hrec] at h; exact absurd h (by simp)
        | some w =>
            rw [hrec] at h
            have hv : v = w + 1 := (Option.some.inj h).symm
            subst hv
            obtain ⟨h1, h2⟩ := ih hrec
            constructor
            · simpa using h1
            · simpa using h2

theorem firstIdx_isSome {u : Nat} :
    ∀ {l : List Nat}, (∃ v, v < l.length ∧ l.getD v 0 = u) →
      (firstIdx u l).isSome = true := by
  intro l
  induction l with
  | nil => rintro ⟨v, hv, _⟩; simp at hv
  | cons x t ih =>
      rintro ⟨v, hv, hg⟩
      unfold firstIdx
      by_cases hx : x = u
      · rw [if_pos hx]; rfl
      · rw [if_neg hx]
        cases v with
        | zero =>
            exfalso
            exact hx (by simpa using hg)
        | succ w =>
            have : (firstIdx u t).isSome = true :=
              ih ⟨w, by simpa using hv, by simpa using hg⟩
            cases hrec : firstIdx u t with
            | none => rw [hrec] at this; exact absurd this (by simp)
            | some _ => rfl

theorem ownerSearch_some {sys : System} {u : Nat} :
    ∀ {m : Nat} {pv : Nat × Nat}, ownerSearch sys u m = some pv →
      pv.1 < m ∧ pv.2 < (partAt sys pv.1).map.length ∧
        (partAt sys pv.1).map.getD pv.2 0 = u := by
  intro m
  induction m with
  | zero => intro pv h; exact absurd h (by simp [ownerSearch])
  | succ p ih =>
      intro pv h
      unfold ownerSearch at h
      cases hrec : ownerSearch sys u p with
      | some pv' =>
          rw [hrec] at h
          have : pv' = pv := Option.some.inj h
          subst this
          obtain ⟨h1, h2, h3⟩ := ih hrec
          exact ⟨Nat.lt_succ_of_lt h1, h2, h3⟩
      | none =>
          rw [hrec] at h
          cases hidx : firstIdx u (partAt sys p).map with
          | none => rw [hidx] at h; exact absurd h (by simp)
          | some v =>
              rw [hidx] at h
              have : (p, v) = pv := Option.some.inj h
              subst this
              obtain ⟨h1, h2⟩ := firstIdx_some hidx
              exact ⟨Nat.lt_succ_self p, h1, h2⟩

theorem ownerSearch_isSome {sys : System} {u : Nat} :
    ∀ {m : Nat}, (∃ p, p < m ∧ ∃ v, v < (partAt sys p).map.length ∧
        (partAt sys p).map.getD v 0 = u) →
      (ownerSearch sys u m).isSome = true := by
  intro m
  induction m with
  | zero => rintro ⟨p, hp, _⟩; omega
  | succ q ih =>
      rintro ⟨p, hp, v, hv, hg⟩
      unfold ownerSearch
      cases hrec : ownerSearch sys u q with
      | some _ => rfl
      | none =>
          have hpq : p = q := by
            by_contra hne
            have : p < q := by omega
            have := ih ⟨p, this, v, hv, hg⟩
            rw [hrec] at this
            exact absurd this (by simp)
          subst hpq
          have : (firstIdx u (partAt sys p).map).isSome = true :=
            firstIdx_isSome ⟨v, hv, hg⟩
          cases hidx : firstIdx u (partAt sys p).map with
          | none => rw [hidx] at this; exact absurd this (by simp)
          | some _ => simp [hidx]

/-- The source decomposition finds the unique owner of any in-range
global vertex id. -/
theorem vertex_id_in_partition_spec (sys : System) (hwf : sysWF sys)
    {u : Nat} (hu : u < sys.N) :
    (vertex_id_in_partition sys u).1 < sys.partition_count ∧
    (vertex_id_in_partition sys u).2 <
      vcount sys (vertex_id_in_partition sys u).1 ∧
    gmap sys (vertex_id_in_partition sys u).1
      (vertex_id_in_partition sys u).2 = u := by
  obtain ⟨p, hp, v, hv, hg⟩ := wf_surj hwf u hu
  have hlen : (partAt sys p).map.length = vcount sys p := wf_maplen hwf p hp
  have hsome : (ownerSearch sys u sys.partition_count).isSome = true :=
    ownerSearch_isSome ⟨p, hp, v, by rw [hlen]; exact hv, hg⟩
  unfold vertex_id_in_partition
  cases hres : ownerSearch sys u sys.partition_count with
  | none => rw [hres] at hsome; exact absurd hsome (by simp)
  | some pv =>
      obtain ⟨h1, h2, h3⟩ := ownerSearch_some hres
      have hlen' : (partAt sys pv.1).map.length = vcount sys pv.1 :=
        wf_maplen hwf pv.1 h1
      exact ⟨h1, by rw [← hlen']; exact h2, h3⟩

/-! ### Init and the first superstep -/

/-- After the init phase and the no-op first superstep (whose gather
publishes the source partition's initial frontier), the invariant
holds at level 0 and the engine continues. -/
theorem init_round1_char (sys : System) (src sp sv : Nat) (hwf : sysWF sys)
    (hsrc : src < sys.N) (hsp : sp < sys.partition_count)
    (hsv : sv < vcount sys sp) (hg : gmap sys sp sv = src) (ss1 : SysState)
    (hss1 : ss1 = (List.range sys.partition_count).foldl
      (fun t p => bfs_init sys sp sv p t)
      ⟨fun _ => none, fun _ _ => ∅, true⟩) :
    BfsInv sys src 0 (engine_round sys 1 { ss1 with finished := true }) ∧
    (engine_round sys 1 { ss1 with finished := true }).finished = false := by
  have hcsp : vcount sys sp ≠ 0 := by omega
  rw [hss1, inits_fold_char sys sp sv _ (List.nodup_range _)]
  unfold engine_round
  rw [steps_fold_char sys 1 _ (List.nodup_range _),
    gathers_fold_char sys _ (List.nodup_range _)]
  simp only [List.mem_range]
  -- the step phase at superstep 1 leaves states unchanged
  have hres1 : ∀ q (stq : Option bfs_state_t) bxs,
      stepRes sys 1 q bxs stq = stq := by
    intro q stq bxs
    unfold stepRes
    by_cases h0 : (partAt sys q).subgraph.vertex_count = 0
    · rw [if_pos h0]
    · rw [if_neg h0, if_pos rfl]
  have hkeeps1 : ∀ q (stq : Option bfs_state_t) bxs,
      stepKeeps sys 1 q bxs stq = decide (vcount sys q = 0) := by
    intro q stq bxs
    unfold stepKeeps
    by_cases h0 : (partAt sys q).subgraph.vertex_count = 0
    · rw [if_pos h0]
      exact (decide_eq_true h0).symm
    · rw [if_neg h0, if_pos rfl]
      exact (decide_eq_false h0).symm
  simp only [hres1, hkeeps1, ite_self]
  -- the visited set right after init
  have hvis : ∀ a, visitedOf
      { pstate := fun q =>
          if q < sys.partition_count ∧ vcount sys q ≠ 0 then
            some (init_state sp sv q)
          else none,
        boxes := fun _ _ => ∅,
        finished := true && (List.range sys.partition_count).all
          (fun p => decide (vcount sys p = 0)) } a =
      (if a < sys.partition_count ∧ vcount sys a ≠ 0 ∧ a = sp then {sv}
        else ∅) := by
    intro a
    unfold visitedOf
    show (match (if a < sys.partition_count ∧ vcount sys a ≠ 0 then
        some (init_state sp sv a) else none) with
      | some st => st.visited
      | none => ∅) = _
    by_cases h1 : a < sys.partition_count ∧ vcount sys a ≠ 0
    · rw [if_pos h1]
      show (init_state sp sv a).visited = _
      unfold init_state
      simp only
      by_cases h2 : a = sp
      · rw [if_pos h2, if_pos ⟨h1.1, h1.2, h2⟩]
      · rw [if_neg h2, if_neg (fun hc => h2 hc.2.2)]
    · rw [if_neg h1]
      rw [if_neg (fun hc => h1 ⟨hc.1, hc.2.1⟩)]
  constructor
  · constructor
    · -- partition states
      intro p hp hc
      refine ⟨init_state sp sv p, ?_, rfl, ?_, ?_, ?_, ?_, ?_⟩
      · show (if p < sys.partition_count ∧ vcount sys p ≠ 0 then
            some (init_state sp sv p) else none) = some (init_state sp sv p)
        rw [if_pos ⟨hp, hc⟩]
      · show (if p = sp then ({sv} : bitmap_t) else ∅) ⊆ _
        by_cases h2 : p = sp
        · subst h2
          rw [if_pos rfl]
          intro x hx
          have : x = sv := Finset.mem_singleton.mp hx
          subst this
          exact Finset.mem_range.mpr hsv
        · rw [if_neg h2]
          intro x hx
          exact absurd hx (Finset.not_mem_empty x)
      · show (∅ : bitmap_t) ⊆ _
        intro x hx
        exact absurd hx (Finset.not_mem_empty x)
      · intro v hv
        show v ∈ (if p = sp then ({sv} : bitmap_t) else ∅) ↔ _
        have hball : (gmap sys p v ∈ ball sys src 0) ↔ gmap sys p v = src :=
          Finset.mem_singleton
        rw [hball]
        by_cases h2 : p = sp
        · subst h2
          rw [if_pos rfl, Finset.mem_singleton]
          constructor
          · intro h; subst h; exact hg
          · intro h
            exact wf_injv hwf p hp v hv p hp sv hsv (h.trans hg.symm)
        · rw [if_neg h2]
          constructor
          · intro h; exact absurd h (Finset.not_mem_empty v)
          · intro h
            exact absurd
              (wf_injp hwf p hp v hv sp hsp sv hsv (h.trans hg.symm)) h2
      · intro v hv
        show v ∈ (∅ : bitmap_t) ↔ _
        constructor
        · intro h; exact absurd h (Finset.not_mem_empty v)
        · rintro ⟨h, _⟩; omega
      · intro v hv
        show (if p = sp ∧ v = sv then 0 else INF_COST) = _
        have hball : (gmap sys p v ∈ ball sys src 0) ↔ gmap sys p v = src :=
          Finset.mem_singleton
        by_cases h2 : p = sp ∧ v = sv
        · rw [if_pos h2]
          obtain ⟨h2p, h2v⟩ := h2
          subst h2p; subst h2v
          rw [if_pos (hball.mpr hg), hg]
          have : entryLevel sys src src sys.N = 0 :=
            entryLevel_eq sys src src (Finset.mem_singleton_self src)
              (Or.inl rfl) (Nat.zero_le _)
          rw [this]
        · rw [if_neg h2]
          have : ¬ gmap sys p v = src := by
            intro h
            refine h2 ⟨?_, ?_⟩
            · exact wf_injp hwf p hp v hv sp hsp sv hsv (h.trans hg.symm)
            · exact wf_injv hwf p hp v hv sp hsp sv hsv (h.trans hg.symm)
          rw [if_neg (fun hc => this (hball.mp hc))]
    · -- boxes
      intro a b idx
      simp only [hvis]
      by_cases hgd : a < sys.partition_count ∧ b ≠ a ∧
          b < sys.partition_count ∧ (sys.rmt_nbrs a b).length ≠ 0
      · rw [if_pos hgd]
        have hca : vcount sys a ≠ 0 :=
          len_ne_zero_vcount hwf hgd.1 hgd.2.2.1 hgd.2.2.2
        rw [bfs_gather_box_mem]
        have hchar : ∀ hlt : idx < (sys.rmt_nbrs a b).length,
            (bitmap_is_set
                (if a < sys.partition_count ∧ vcount sys a ≠ 0 ∧ a = sp then
                  ({sv} : bitmap_t) else ∅)
                ((sys.rmt_nbrs a b).getD idx 0) = true ↔
              gmap sys a ((sys.rmt_nbrs a b).getD idx 0) = src) := by
          intro hlt
          have htbl : (sys.rmt_nbrs a b).getD idx 0 < vcount sys a := by
            refine wf_tbl hwf a hgd.1 b hgd.2.2.1 _ ?_
            rw [List.getD_eq_getElem?_getD, List.getElem?_eq_getElem hlt]
            exact List.getElem_mem hlt
          rw [bitmap_is_set, decide_eq_true_eq]
          by_cases hasp : a = sp
          · rw [if_pos ⟨hgd.1, hca, hasp⟩, Finset.mem_singleton]
            subst hasp
            constructor
            · intro h; rw [h]; exact hg
            · intro h
              exact wf_injv hwf a hgd.1 _ htbl a hgd.1 sv hsv
                (h.trans hg.symm)
          · rw [if_neg (fun hc => hasp hc.2.2)]
            constructor
            · intro h; exact absurd h (Finset.not_mem_empty _)
            · intro h
              exact absurd
                (wf_injp hwf a hgd.1 _ htbl sp hsp sv hsv (h.trans hg.symm))
                hasp
        constructor
        · rintro (h | ⟨hlt, hbit⟩)
          · exact absurd h (Finset.not_mem_empty idx)
          · refine ⟨hgd.1, hgd.2.2.1, hgd.2.1, hlt, ?_⟩
            exact Finset.mem_singleton.mpr ((hchar hlt).mp hbit)
        · rintro ⟨_, _, _, hlt, hball⟩
          exact Or.inr ⟨hlt, (hchar hlt).mpr (Finset.mem_singleton.mp hball)⟩
      · rw [if_neg hgd]
        constructor
        · intro h; exact absurd h (Finset.not_mem_empty idx)
        · rintro ⟨ha, hb, hba, hlt, _⟩
          exact absurd ⟨ha, hba, hb, by omega⟩ hgd
  · -- the engine does not observe a quiescent first superstep
    show (true && _) = false
    rw [Bool.true_and]
    have : sp ∈ List.range sys.partition_count := List.mem_range.mpr hsp
    cases hall : (List.range sys.partition_count).all
        (fun p => decide (vcount sys p = 0)) with
    | false => rfl
    | true =>
        exfalso
        have := List.all_eq_true.mp hall sp this
        rw [decide_eq_true_eq] at this
        exact hcsp this

/-! ### Aggregation -/

theorem fold_update_miss (mf cf : Nat → Nat) (u : Nat) :
    ∀ (l : List Nat) (g : Nat → Nat), (∀ w ∈ l, mf w ≠ u) →
      (l.foldl (fun g w => Function.update g (mf w) (cf w)) g) u = g u := by
  intro l
  induction l with
  | nil => intro g _; rfl
  | cons x t ih =>
      intro g hmiss
      rw [List.foldl_cons, ih _ (fun w hw => hmiss w (List.mem_cons_of_mem x hw))]
      exact Function.update_noteq
        (Ne.symm (hmiss x (List.mem_cons_self x t))) (cf x) g

theorem fold_update_hit (mf cf : Nat → Nat) (u : Nat) :
    ∀ (l : List Nat), l.Nodup → ∀ (g : Nat → Nat) (v : Nat), v ∈ l →
      mf v = u → (∀ w ∈ l, mf w = u → w = v) →
      (l.foldl (fun g w => Function.update g (mf w) (cf w)) g) u = cf v := by
  intro l
  induction l with
  | nil => intro _ g v hv; exact absurd hv (List.not_mem_nil v)
  | cons x t ih =>
      intro hnd g v hv hmv huniq
      rw [List.nodup_cons] at hnd
      rw [List.foldl_cons]
      rcases List.mem_cons.mp hv with hvx | hvt
      · subst hvx
        have hmisses : ∀ w ∈ t, mf w ≠ u := by
          intro w hw hc
          have := huniq w (List.mem_cons_of_mem v hw) hc
          subst this
          exact hnd.1 hw
        rw [fold_update_miss mf cf u t _ hmisses, hmv,
          Function.update_same]
      · have hxv : x ≠ v := fun h => hnd.1 (h ▸ hvt)
        exact ih hnd.2 _ v hvt hmv
          (fun w hw hc => huniq w (List.mem_cons_of_mem x hw) hc)

/-- The aggregate callback leaves output slot u alone when the
partition owns no vertex mapping to u. -/
theorem bfs_aggregate_miss (sys : System) (p : Nat) (ss : SysState)
    (g : Nat → Nat) (u : Nat)
    (hmiss : ∀ w, w < vcount sys p → gmap sys p w ≠ u) :
    bfs_aggregate sys p ss g u = g u := by
  unfold bfs_aggregate
  by_cases h0 : (partAt sys p).subgraph.vertex_count = 0
  · rw [if_pos h0]
  · rw [if_neg h0]
    cases hst : ss.pstate p with
    | none => rfl
    | some st =>
        simp only
        exact fold_update_miss _ _ u _ _
          (fun w hw => hmiss w (List.mem_range.mp hw))

/-- The aggregate callback writes the owner's cost into slot u. -/
theorem bfs_aggregate_hit (sys : System) (p : Nat) (ss : SysState)
    (g : Nat → Nat) (u vu : Nat) (st : bfs_state_t)
    (hst : ss.pstate p = some st) (hvu : vu < vcount sys p)
    (hmv : gmap sys p vu = u)
    (huniq : ∀ w, w < vcount sys p → gmap sys p w = u → w = vu) :
    bfs_aggregate sys p ss g u = st.cost vu := by
  unfold bfs_aggregate
  have h0 : ¬ (partAt sys p).subgraph.vertex_count = 0 := by
    show ¬ vcount sys p = 0
    omega
  rw [if_neg h0, hst]
  simp only
  exact fold_update_hit _ _ u _ (List.nodup_range _) g vu
    (List.mem_range.mpr hvu) hmv
    (fun w hw hc => huniq w (List.mem_range.mp hw) hc)

/-- The whole aggregate phase writes, into every global slot u, the
cost recorded by u's owning partition. -/
theorem aggs_fold_at (sys : System) (ss : SysState) (u pu vu : Nat)
    (st : bfs_state_t) (hwf : sysWF sys) (hpu : pu < sys.partition_count)
    (hvu : vu < vcount sys pu) (hmv : gmap sys pu vu = u)
    (hst : ss.pstate pu = some st) :
    ∀ (l : List Nat), l.Nodup → (∀ p ∈ l, p < sys.partition_count) →
      pu ∈ l → ∀ g : Nat → Nat,
      (l.foldl (fun g p => bfs_aggregate sys p ss g) g) u = st.cost vu := by
  have huniq : ∀ w, w < vcount sys pu → gmap sys pu w = u → w = vu := by
    intro w hw hc
    exact wf_injv hwf pu hpu w hw pu hpu vu hvu (hc.trans hmv.symm)
  have hmiss : ∀ p, p < sys.partition_count → p ≠ pu →
      ∀ w, w < vcount sys p → gmap sys p w ≠ u := by
    intro p hp hne w hw hc
    exact hne (wf_injp hwf p hp w hw pu hpu vu hvu (hc.trans hmv.symm))
  intro l
  induction l with
  | nil => intro _ _ hmem; exact absurd hmem (List.not_mem_nil pu)
  | cons x t ih =>
      intro hnd hlt hmem g
      rw [List.nodup_cons] at hnd
      rw [List.foldl_cons]
      rcases List.mem_cons.mp hmem with hx | hxt
      · subst hx
        have hrest : ∀ p ∈ t, p ≠ pu := fun p hp hc => hnd.1 (hc ▸ hp)
        have hval : bfs_aggregate sys pu ss g u = st.cost vu :=
          bfs_aggregate_hit sys pu ss g u vu st hst hvu hmv huniq
        -- the remaining partitions never touch slot u
        have : ∀ (l' : List Nat), (∀ p ∈ l', p < sys.partition_count ∧ p ≠ pu) →
            ∀ g' : Nat → Nat,
            (l'.foldl (fun g p => bfs_aggregate sys p ss g) g') u = g' u := by
          intro l'
          induction l' with
          | nil => intro _ g'; rfl
          | cons y t' ih' =>
              intro hall g'
              rw [List.foldl_cons, ih' (fun p hp => hall p (List.mem_cons_of_mem y hp))]
              have hy := hall y (List.mem_cons_self y t')
              exact bfs_aggregate_miss sys y ss g' u (hmiss y hy.1 hy.2)
        rw [this t (fun p hp => ⟨hlt p (List.mem_cons_of_mem pu hp), hrest p hp⟩) _,
          hval]
      · have hxpu : x ≠ pu := fun h => hnd.1 (h ▸ hxt)
        exact ih hnd.2 (fun p hp => hlt p (List.mem_cons_of_mem x hp)) hxt _

/-! ### The engine path of the public entry point -/

/-- Every ball is inside the radius-N ball (the chain of balls must
stabilize within N strict growth steps). -/
theorem ball_subset_ballN (sys : System) {src : Nat} (hsrc : src < sys.N) :
    ∀ k, ball sys src k ⊆ ball sys src sys.N := by
  have hstab : ∃ j, j < sys.N ∧
      ball sys src (j + 1) = ball sys src j := by
    by_contra hnone
    push_neg at hnone
    have hchain : ∀ j, j < sys.N → ball sys src (j + 1) ≠ ball sys src j :=
      fun j hj => hnone j hj
    have hcard := ball_chain_card sys src sys.N hchain
    have hsub := Finset.card_le_card (ball_subset_range sys hsrc sys.N)
    rw [Finset.card_range] at hsub
    omega
  obtain ⟨j, hj, heq⟩ := hstab
  intro k
  intro x hx
  have hxj : x ∈ ball sys src j := ball_final sys src heq k hx
  exact ball_mono sys src (by omega) hxj

/-- With no special case firing, the entry point runs the engine. -/
theorem bfs_stepwise_hybrid_run (sys : System) (src : Nat) (buf : Nat → Nat)
    (hchk : check_special_cases sys src (some buf) =
      (error_t.SUCCESS, some buf, false)) :
    bfs_stepwise_hybrid sys src (some buf) =
      (error_t.SUCCESS, some
        ((List.range sys.partition_count).foldl
          (fun g p => bfs_aggregate sys p
            (engine_loop sys (sys.N + 2) 1
              ((List.range sys.partition_count).foldl
                (fun t p => bfs_init sys (vertex_id_in_partition sys src).1
                  (vertex_id_in_partition sys src).2 p t)
                ⟨fun _ => none, fun _ _ => ∅, true⟩)) g)
          buf)) := by
  unfold bfs_stepwise_hybrid
  rw [hchk]
  rfl

/-- The output of a full engine run: ball entry level for reachable
vertices, INF_COST for unreachable ones. -/
theorem hybrid_engine_char (sys : System) (src : Nat) (buf : Nat → Nat)
    (hwf : sysWF sys) (hsrc : src < sys.N) (hone : sys.N ≠ 1)
    (hedge : sys.edge_count ≠ 0) :
    ∃ out, bfs_stepwise_hybrid sys src (some buf) =
        (error_t.SUCCESS, some out) ∧
      ∀ u, u < sys.N →
        ((∃ k, u ∈ ball sys src k) →
          out u = entryLevel sys src u sys.N ∧
            u ∈ ball sys src (entryLevel sys src u sys.N)) ∧
        ((∀ k, u ∉ ball sys src k) → out u = INF_COST) := by
  have hchk : check_special_cases sys src (some buf) =
      (error_t.SUCCESS, some buf, false) := by
    unfold check_special_cases
    rw [if_neg (by push_neg; exact ⟨by omega, by simp⟩), if_neg hone,
      if_neg hedge]
  have hrun := bfs_stepwise_hybrid_run sys src buf hchk
  refine ⟨_, hrun, ?_⟩
  intro u hu
  -- the source decomposition
  obtain ⟨hsp, hsv, hg⟩ := vertex_id_in_partition_spec sys hwf hsrc
  -- the state after init and the first superstep
  obtain ⟨hinv0, hflag0⟩ := init_round1_char sys src
    (vertex_id_in_partition sys src).1 (vertex_id_in_partition sys src).2
    hwf hsrc hsp hsv hg _ rfl
  -- one unrolling of the engine loop
  have hunroll : engine_loop sys (sys.N + 2) 1
      ((List.range sys.partition_count).foldl
        (fun t p => bfs_init sys (vertex_id_in_partition sys src).1
          (vertex_id_in_partition sys src).2 p t)
        ⟨fun _ => none, fun _ _ => ∅, true⟩) =
      engine_loop sys (sys.N + 1) 2
        (engine_round sys 1
          { (List.range sys.partition_count).foldl
              (fun t p => bfs_init sys (vertex_id_in_partition sys src).1
                (vertex_id_in_partition sys src).2 p t)
              ⟨fun _ => none, fun _ _ => ∅, true⟩ with finished := true }) := by
    have hdef : engine_loop sys (sys.N + 2) 1
        ((List.range sys.partition_count).foldl
          (fun t p => bfs_init sys (vertex_id_in_partition sys src).1
            (vertex_id_in_partition sys src).2 p t)
          ⟨fun _ => none, fun _ _ => ∅, true⟩) =
        (if (engine_round sys 1
            { (List.range sys.partition_count).foldl
                (fun t p => bfs_init sys (vertex_id_in_partition sys src).1
                  (vertex_id_in_partition sys src).2 p t)
                ⟨fun _ => none, fun _ _ => ∅, true⟩ with
              finished := true }).finished = true then
          engine_round sys 1
            { (List.range sys.partition_count).foldl
                (fun t p => bfs_init sys (vertex_id_in_partition sys src).1
                  (vertex_id_in_partition sys src).2 p t)
                ⟨fun _ => none, fun _ _ => ∅, true⟩ with finished := true }
        else
          engine_loop sys (sys.N + 1) 2
            (engine_round sys 1
              { (List.range sys.partition_count).foldl
                  (fun t p => bfs_init sys (vertex_id_in_partition sys src).1
                    (vertex_id_in_partition sys src).2 p t)
                  ⟨fun _ => none, fun _ _ => ∅, true⟩ with
                finished := true })) := rfl
    rw [hdef, if_neg (by rw [hflag0]; exact Bool.false_ne_true)]
  -- the loop reaches the fixed point
  have h02 : (0 : Nat) + 2 = 2 := rfl
  obtain ⟨d', hd0, heq, hinvF, _⟩ :=
    loop_invariant sys src hwf hsrc (sys.N + 1) 0 _ hinv0
      (by omega) (by omega)
  rw [h02] at hinvF
  rw [hunroll]
  -- the owner of u
  obtain ⟨pu, hpu, vu, hvu, hmv⟩ := wf_surj hwf u hu
  have hcu : vcount sys pu ≠ 0 := by omega
  obtain ⟨st, hst, _, _, _, _, _, hC⟩ := hinvF.1 pu hpu hcu
  have hout : ((List.range sys.partition_count).foldl
      (fun g p => bfs_aggregate sys p (engine_loop sys (sys.N + 1) 2
        (engine_round sys 1
          { (List.range sys.partition_count).foldl
              (fun t p => bfs_init sys (vertex_id_in_partition sys src).1
                (vertex_id_in_partition sys src).2 p t)
              ⟨fun _ => none, fun _ _ => ∅, true⟩ with finished := true })) g)
      buf) u = st.cost vu := by
    refine aggs_fold_at sys _ u pu vu st hwf hpu hvu hmv ?_
      (List.range sys.partition_count) (List.nodup_range _)
      (fun p hp => List.mem_range.mp hp) (List.mem_range.mpr hpu) buf
    rw [← h02] at hst
    exact hst
  rw [hout]
  have hcost := hC vu hvu
  rw [hmv] at hcost
  constructor
  · rintro ⟨k, hk⟩
    have hud' : u ∈ ball sys src d' := ball_final sys src heq k hk
    have hud1 : u ∈ ball sys src (d' + 1) := ball_mono_succ sys src d' hud'
    rw [hcost, if_pos hud1]
    refine ⟨rfl, ?_⟩
    exact mem_ball_entryLevel sys src u (ball_subset_ballN sys hsrc k hk)
  · intro hnone
    rw [hcost, if_neg (hnone (d' + 1))]

/-- The entry level is the length of a shortest walk from the source. -/
theorem entry_shortest (sys : System) (hwf : sysWF sys) {src u : Nat}
    (hsrc : src < sys.N) {k : Nat} (hk : u ∈ ball sys src k) :
    Walk (globalAdj sys) src u (entryLevel sys src u sys.N) ∧
    ∀ n, Walk (globalAdj sys) src u n →
      entryLevel sys src u sys.N ≤ n := by
  have huN : u ∈ ball sys src sys.N := ball_subset_ballN sys hsrc k hk
  have hue : u ∈ ball sys src (entryLevel sys src u sys.N) :=
    mem_ball_entryLevel sys src u huN
  have hmin : ∀ n, Walk (globalAdj sys) src u n →
      entryLevel sys src u sys.N ≤ n := by
    intro n hw
    have hbn : u ∈ ball sys src n := mem_ball_of_walk hwf hw
    rcases Nat.le_or_le n sys.N with h | h
    · exact entryLevel_min sys src u hbn h
    · exact Nat.le_trans (entryLevel_le sys src u sys.N) h
  obtain ⟨m, hm, hwalk⟩ := walk_of_mem_ball hue
  have hme : m = entryLevel sys src u sys.N :=
    Nat.le_antisymm hm (hmin m hwalk)
  exact ⟨hme ▸ hwalk, hmin⟩

/-- A graph with no edges induces no adjacency at all. -/
theorem no_edges_no_adj {sys : System} (hwf : sysWF sys)
    (h0 : sys.edge_count = 0) : ∀ u w, ¬ globalAdj sys u w := by
  intro u w h
  obtain ⟨p, hp, v, hv, _, e, he, _⟩ := globalAdj_elim h
  have hsum := wf_ecount hwf
  rw [h0] at hsum
  have hlen : (partAt sys p).subgraph.edges.length = 0 := by
    have hmem : (partAt sys p).subgraph.edges.length ∈
        (List.range sys.partition_count).map
          (fun p => (partAt sys p).subgraph.edges.length) :=
      List.mem_map.mpr ⟨p, List.mem_range.mpr hp, rfl⟩
    have := List.sum_eq_zero_iff.mp hsum.symm _ hmem
    exact this
  have hedges : (partAt sys p).subgraph.edges = [] :=
    List.eq_nil_of_length_eq_zero hlen
  have : neighbors (partAt sys p).subgraph v = [] := by
    unfold neighbors
    rw [hedges]
    simp
  rw [this] at he
  exact List.not_mem_nil e he

/-- With no adjacency, the only walks are trivial. -/
theorem walk_no_adj {adj : Nat → Nat → Prop} (hno : ∀ u w, ¬ adj u w)
    {a b n : Nat} (hw : Walk adj a b n) : a = b ∧ n = 0 := by
  cases hw with
  | refl => exact ⟨rfl, rfl⟩
  | cons hadj _ => exact absurd hadj (hno _ _)

/-- A special case that sets finished short-circuits the engine. -/
theorem bfs_stepwise_hybrid_special (sys : System) (src : Nat)
    (cost : Option (Nat → Nat)) (rc : error_t) (out : Option (Nat → Nat))
    (hchk : check_special_cases sys src cost = (rc, out, true)) :
    bfs_stepwise_hybrid sys src cost = (rc, out) := by
  unfold bfs_stepwise_hybrid
  rw [hchk]
  rfl

/-- The one-vertex special case. -/
theorem check_one (sys : System) (src : Nat) (buf : Nat → Nat)
    (hsrc : src < sys.N) (hone : sys.N = 1) :
    check_special_cases sys src (some buf) =
      (error_t.SUCCESS, some (Function.update buf 0 0), true) := by
  unfold check_special_cases
  rw [if_neg (by push_neg; exact ⟨by omega, by simp⟩), if_pos hone]
  rfl

/-- The edge-less special case. -/
theorem check_no_edges (sys : System) (src : Nat) (buf : Nat → Nat)
    (hsrc : src < sys.N) (hone : sys.N ≠ 1) (hedge : sys.edge_count = 0) :
    check_special_cases sys src (some buf) =
      (error_t.SUCCESS,
        some (Function.update
          (fun v => if v < sys.N then INF_COST else buf v) src 0), true) := by
  unfold check_special_cases
  rw [if_neg (by push_neg; exact ⟨by omega, by simp⟩), if_neg hone,
    if_pos hedge]
  rfl

/-- The invalid-input case. -/
theorem check_fail (sys : System) (src : Nat) (cost : Option (Nat → Nat))
    (h : sys.N ≤ src ∨ cost.isNone = true) :
    check_special_cases sys src cost = (error_t.FAILURE, cost, true) := by
  unfold check_special_cases
  rw [if_pos h]

/-- Claim C1: for every well-formed partitioned graph and every valid
source vertex id, bfs_stepwise_hybrid(src, cost) succeeds, cost[src]
is 0, every vertex reachable from src holds the edge count of a
shortest path from src to it, and every unreachable vertex holds the
INF_COST sentinel. -/
theorem bfs_stepwise_hybrid_computes_shortest_paths (sys : System)
    (src : Nat) (buf : Nat → Nat) (hwf : sysWF sys) (hsrc : src < sys.N) :
    ∃ out, bfs_stepwise_hybrid sys src (some buf) =
        (error_t.SUCCESS, some out) ∧
      out src = 0 ∧
      (∀ v, v < sys.N → ∀ n, Walk (globalAdj sys) src v n →
        Walk (globalAdj sys) src v (out v) ∧ out v ≤ n) ∧
      (∀ v, v < sys.N → (∀ n, ¬ Walk (globalAdj sys) src v n) →
        out v = INF_COST) := by
  by_cases hone : sys.N = 1
  · have hsrc0 : src = 0 := by omega
    refine ⟨Function.update buf 0 0,
      bfs_stepwise_hybrid_special sys src _ _ _
        (check_one sys src buf hsrc hone), ?_, ?_, ?_⟩
    · rw [hsrc0, Function.update_same]
    · intro v hv n hw
      have hv0 : v = 0 := by omega
      subst hv0
      subst hsrc0
      rw [Function.update_same]
      exact ⟨Walk.refl 0, Nat.zero_le n⟩
    · intro v hv hnone
      exfalso
      have hv0 : v = 0 := by omega
      subst hv0
      subst hsrc0
      exact hnone 0 (Walk.refl 0)
  · by_cases hedge : sys.edge_count = 0
    · have hno := no_edges_no_adj hwf hedge
      refine ⟨_, bfs_stepwise_hybrid_special sys src _ _ _
        (check_no_edges sys src buf hsrc hone hedge), ?_, ?_, ?_⟩
      · rw [Function.update_same]
      · intro v hv n hw
        obtain ⟨hsv, _⟩ := walk_no_adj hno hw
        subst hsv
        rw [Function.update_same]
        exact ⟨Walk.refl src, Nat.zero_le n⟩
      · intro v hv hnone
        have hvs : v ≠ src := fun h => hnone 0 (by rw [h]; exact Walk.refl src)
        rw [Function.update_noteq hvs]
        show (if v < sys.N then INF_COST else buf v) = INF_COST
        rw [if_pos hv]
    · obtain ⟨out, hrun, hprop⟩ :=
        hybrid_engine_char sys src buf hwf hsrc hone hedge
      refine ⟨out, hrun, ?_, ?_, ?_⟩
      · have h0 := (hprop src hsrc).1 ⟨0, Finset.mem_singleton_self src⟩
        rw [h0.1]
        exact entryLevel_eq sys src src (Finset.mem_singleton_self src)
          (Or.inl rfl) (Nat.zero_le _)
      · intro v hv n hw
        have hreach : ∃ k, v ∈ ball sys src k :=
          ⟨n, mem_ball_of_walk hwf hw⟩
        obtain ⟨hval, hmem⟩ := (hprop v hv).1 hreach
        obtain ⟨hwalk, hmin⟩ := entry_shortest sys hwf hsrc hmem
        rw [hval]
        exact ⟨hwalk, hmin n hw⟩
      · intro v hv hnone
        refine (hprop v hv).2 ?_
        intro k hk
        obtain ⟨n, _, hw⟩ := walk_of_mem_ball hk
        exact hnone n hw

/-! ### Concrete systems used by the witnesses -/

/-- The chain 0 - 1 - 2 split into a CPU partition owning vertices
0 and 1 and a GPU partition owning vertex 2. -/
def chainSys : System :=
  { partition_count := 2,
    parts :=
      [ { id := 0,
          subgraph := { vertex_count := 2, vertices := [0, 1, 3],
                        edges := [(0, 1), (0, 0), (1, 0)] },
          processor := processor_type.CPU,
          map := [0, 1] },
        { id := 1,
          subgraph := { vertex_count := 1, vertices := [0, 1],
                        edges := [(0, 0)] },
          processor := processor_type.GPU,
          map := [2] } ],
    rmt_nbrs := fun p q =>
      if p = 1 ∧ q = 0 then [0] else if p = 0 ∧ q = 1 then [1] else [],
    N := 3,
    edge_count := 4 }

theorem bfs_stepwise_hybrid_computes_shortest_paths_witness :
    sysWF chainSys ∧ 0 < chainSys.N ∧
      (∃ out, bfs_stepwise_hybrid chainSys 0 (some (fun _ => 7)) =
          (error_t.SUCCESS, some out) ∧
        out 0 = 0 ∧
        (∀ v, v < chainSys.N → ∀ n, Walk (globalAdj chainSys) 0 v n →
          Walk (globalAdj chainSys) 0 v (out v) ∧ out v ≤ n) ∧
        (∀ v, v < chainSys.N → (∀ n, ¬ Walk (globalAdj chainSys) 0 v n) →
          out v = INF_COST)) :=
  ⟨by decide, by decide,
    bfs_stepwise_hybrid_computes_shortest_paths chainSys 0 (fun _ => 7)
      (by decide) (by decide)⟩

/-! ### Per-vertex characterization of one step (claim C2) -/

/-- Claim C2: in a step phase, an unvisited vertex with a neighbour
whose bit is set in the frontier bitmap of the neighbour's owning
partition becomes visited with cost level + 1 and the not-finished
signal is raised; an unvisited vertex with no qualifying neighbour is
left unchanged; a visited vertex is skipped and keeps its cost. -/
theorem bfs_bu_step_vertex_cases (par : partition_t)
    (frontier : Nat → bitmap_t) (st : bfs_state_t) (f0 : Bool) (v : Nat) :
    (v < par.subgraph.vertex_count → v ∉ st.visited →
      (∃ e ∈ neighbors par.subgraph v,
        bitmap_is_set (frontier e.1) e.2 = true) →
      v ∈ (bfs_bu_step par frontier st f0).1.visited ∧
        (bfs_bu_step par frontier st f0).1.cost v = st.level + 1 ∧
        (bfs_bu_step par frontier st f0).2 = false) ∧
    (v ∉ st.visited →
      ¬ (∃ e ∈ neighbors par.subgraph v,
        bitmap_is_set (frontier e.1) e.2 = true) →
      v ∉ (bfs_bu_step par frontier st f0).1.visited ∧
        (bfs_bu_step par frontier st f0).1.cost v = st.cost v) ∧
    (v ∈ st.visited →
      v ∈ (bfs_bu_step par frontier st f0).1.visited ∧
        (bfs_bu_step par frontier st f0).1.cost v = st.cost v) := by
  rw [bfs_bu_step_char]
  simp only
  refine ⟨?_, ?_, ?_⟩
  · intro hv hnvis hex
    have hb : becomes_visited par.subgraph frontier st v = true := by
      unfold becomes_visited
      rw [Bool.and_eq_true]
      constructor
      · simp [bitmap_is_set, hnvis]
      · exact (bfs_bu_scan_iff frontier _).mpr hex
    refine ⟨?_, ?_, ?_⟩
    · rw [Finset.mem_union]
      exact Or.inr (Finset.mem_filter.mpr ⟨Finset.mem_range.mpr hv, hb⟩)
    · rw [if_pos ⟨hv, hb⟩]
    · rw [if_pos (List.any_eq_true.mpr ⟨v, List.mem_range.mpr hv, hb⟩)]
  · intro hnvis hnex
    have hb : becomes_visited par.subgraph frontier st v = false := by
      unfold becomes_visited
      have : bfs_bu_scan frontier (neighbors par.subgraph v) = false := by
        cases hs : bfs_bu_scan frontier (neighbors par.subgraph v) with
        | false => rfl
        | true => exact absurd ((bfs_bu_scan_iff frontier _).mp hs) hnex
      rw [this, Bool.and_false]
    constructor
    · rw [Finset.mem_union]
      rintro (h | h)
      · exact hnvis h
      · rw [Finset.mem_filter] at h
        rw [h.2] at hb
        exact Bool.true_eq_false.mp hb
    · rw [if_neg (fun hc => by rw [hc.2] at hb; exact Bool.true_eq_false.mp hb)]
  · intro hvis
    have hb : becomes_visited par.subgraph frontier st v = false := by
      unfold becomes_visited
      simp [bitmap_is_set, hvis]
    constructor
    · rw [Finset.mem_union]
      exact Or.inl hvis
    · rw [if_neg (fun hc => by rw [hc.2] at hb; exact Bool.true_eq_false.mp hb)]

theorem bfs_bu_step_vertex_cases_witness :
    (1 < (2 : Nat) ∧ (1 : Nat) ∉ (∅ : Finset Nat) ∧
      (∃ e ∈ neighbors (partAt chainSys 0).subgraph 1,
        bitmap_is_set
          ((fun pid => if pid = 0 then ({0} : Finset Nat) else ∅) e.1)
          e.2 = true)) ∧
    (1 ∈ (bfs_bu_step (partAt chainSys 0)
        (fun pid => if pid = 0 then ({0} : Finset Nat) else ∅)
        ⟨fun _ => INF_COST, ∅, ∅, ∅, 0⟩ true).1.visited ∧
      (bfs_bu_step (partAt chainSys 0)
        (fun pid => if pid = 0 then ({0} : Finset Nat) else ∅)
        ⟨fun _ => INF_COST, ∅, ∅, ∅, 0⟩ true).1.cost 1 = 0 + 1 ∧
      (bfs_bu_step (partAt chainSys 0)
        (fun pid => if pid = 0 then ({0} : Finset Nat) else ∅)
        ⟨fun _ => INF_COST, ∅, ∅, ∅, 0⟩ true).2 = false) :=
  ⟨⟨by decide, by decide, ⟨(0, 0), by decide, by decide⟩⟩,
    (bfs_bu_step_vertex_cases (partAt chainSys 0)
      (fun pid => if pid = 0 then ({0} : Finset Nat) else ∅)
      ⟨fun _ => INF_COST, ∅, ∅, ∅, 0⟩ true 1).1
      (by decide) (by decide) ⟨(0, 0), by decide, by decide⟩⟩

/-! ### CPU and GPU step equivalence (claim C7) -/

/-- Claim C7: given the same subgraph, visited bitmap, frontier
bitmaps, cost array and level, the GPU step kernel launch and the CPU
step produce the same visited bitmap, the same cost array and the same
finished signal; likewise for the full per-superstep CPU and GPU
work functions. -/
theorem bfs_bu_kernel_matches_cpu_step :
    (∀ (par : partition_t) (frontier : Nat → bitmap_t)
        (st : bfs_state_t) (f0 : Bool),
      bfs_bu_kernel_launch par frontier st f0 =
        bfs_bu_step par frontier st f0) ∧
    (∀ (par : partition_t) (boxes : Nat → Nat → bitmap_t)
        (st : bfs_state_t) (f0 : Bool),
      bfs_stepwise_gpu par boxes st f0 = bfs_stepwise_cpu par boxes st f0) :=
  ⟨kernel_launch_eq_step, bfs_stepwise_gpu_eq_cpu⟩

/-! ### Neighbour-order independence (claim C9) -/

theorem list_any_perm {f : Nat × Nat → Bool} {l l' : List (Nat × Nat)}
    (h : l.Perm l') : l.any f = l'.any f := by
  cases hl' : l'.any f with
  | true =>
      obtain ⟨e, he, hfe⟩ := List.any_eq_true.mp hl'
      exact List.any_eq_true.mpr ⟨e, h.mem_iff.mpr he, hfe⟩
  | false =>
      cases hl : l.any f with
      | false => rfl
      | true =>
          obtain ⟨e, he, hfe⟩ := List.any_eq_true.mp hl
          have := List.any_eq_true.mpr ⟨e, h.mem_iff.mp he, hfe⟩
          rw [hl'] at this
          exact absurd this Bool.false_ne_true

theorem list_any_congr {f g : Nat → Bool} :
    ∀ (l : List Nat), (∀ x ∈ l, f x = g x) → l.any f = l.any g := by
  intro l
  induction l with
  | nil => intro _; rfl
  | cons x t ih =>
      intro h
      rw [List.any_cons, List.any_cons, h x (List.mem_cons_self x t),
        ih (fun y hy => h y (List.mem_cons_of_mem x hy))]

/-- Claim C9: the step's break-on-first neighbour scan, and therefore
the whole step's visited bit, cost value and finished signal, are
independent of the order in which a vertex's edge list is iterated. -/
theorem bfs_bu_step_neighbor_order_independent :
    (∀ (frontier : Nat → bitmap_t) (l l' : List (Nat × Nat)), l.Perm l' →
      bfs_bu_scan frontier l = bfs_bu_scan frontier l') ∧
    (∀ (par par' : partition_t) (frontier : Nat → bitmap_t)
        (st : bfs_state_t) (f0 : Bool),
      par'.subgraph.vertex_count = par.subgraph.vertex_count →
      (∀ v, v < par.subgraph.vertex_count →
        (neighbors par'.subgraph v).Perm (neighbors par.subgraph v)) →
      bfs_bu_step par' frontier st f0 = bfs_bu_step par frontier st f0) := by
  have hscan : ∀ (frontier : Nat → bitmap_t) (l l' : List (Nat × Nat)),
      l.Perm l' → bfs_bu_scan frontier l = bfs_bu_scan frontier l' := by
    intro frontier l l' h
    rw [bfs_bu_scan_eq_any, bfs_bu_scan_eq_any]
    exact list_any_perm h
  refine ⟨hscan, ?_⟩
  intro par par' frontier st f0 hn hperm
  have hbec : ∀ v, v < par.subgraph.vertex_count →
      becomes_visited par'.subgraph frontier st v =
        becomes_visited par.subgraph frontier st v := by
    intro v hv
    unfold becomes_visited
    rw [hscan frontier _ _ (hperm v hv)]
  rw [bfs_bu_step_char, bfs_bu_step_char]
  refine Prod.ext ?_ ?_
  · simp only
    congr 1
    · funext v
      by_cases hv : v < par.subgraph.vertex_count
      · rw [hn, hbec v hv]
      · rw [if_neg (fun hc => hv (hn ▸ hc.1)), if_neg (fun hc => hv hc.1)]
    · ext v
      rw [Finset.mem_union, Finset.mem_union, Finset.mem_filter,
        Finset.mem_filter, hn]
      constructor
      · rintro (h | ⟨hr, hb⟩)
        · exact Or.inl h
        · exact Or.inr ⟨hr, (hbec v (Finset.mem_range.mp hr)) ▸ hb⟩
      · rintro (h | ⟨hr, hb⟩)
        · exact Or.inl h
        · exact Or.inr ⟨hr, (hbec v (Finset.mem_range.mp hr)).symm ▸ hb⟩
  · simp only
    rw [hn, list_any_congr _ (fun v hv => hbec v (List.mem_range.mp hv))]

/-- The first chain partition with vertex 1's edge slice reordered. -/
def permChainPar : partition_t :=
  { id := 0,
    subgraph := { vertex_count := 2, vertices := [0, 1, 3],
                  edges := [(0, 1), (1, 0), (0, 0)] },
    processor := processor_type.CPU,
    map := [0, 1] }

theorem bfs_bu_step_neighbor_order_independent_witness :
    ((neighbors permChainPar.subgraph 1).Perm
      (neighbors (partAt chainSys 0).subgraph 1)) ∧
    bfs_bu_step permChainPar
        (fun pid => if pid = 0 then ({0} : Finset Nat) else ∅)
        ⟨fun _ => INF_COST, ∅, ∅, ∅, 0⟩ true =
      bfs_bu_step (partAt chainSys 0)
        (fun pid => if pid = 0 then ({0} : Finset Nat) else ∅)
        ⟨fun _ => INF_COST, ∅, ∅, ∅, 0⟩ true :=
  ⟨by decide,
    (bfs_bu_step_neighbor_order_independent).2
      (partAt chainSys 0) permChainPar
      (fun pid => if pid = 0 then ({0} : Finset Nat) else ∅)
      ⟨fun _ => INF_COST, ∅, ∅, ∅, 0⟩ true (by decide)
      (by
        intro v hv
        have h2 : v < 2 := hv
        interval_cases v <;> decide)⟩

/-! ### Invalid input (claim C3) -/

/-- Claim C3: bfs_stepwise_hybrid fails exactly for an out-of-range
source id or a null output buffer, and on failure the caller's buffer
is returned untouched; the failure is decided by the entry check
before any per-partition state exists. -/
theorem bfs_stepwise_hybrid_failure_iff (sys : System) (src : Nat)
    (cost : Option (Nat → Nat)) :
    ((bfs_stepwise_hybrid sys src cost).1 = error_t.FAILURE ↔
      (sys.N ≤ src ∨ cost = none)) ∧
    ((sys.N ≤ src ∨ cost = none) →
      (bfs_stepwise_hybrid sys src cost).2 = cost) := by
  by_cases hbad : sys.N ≤ src ∨ cost = none
  · have hbad' : sys.N ≤ src ∨ cost.isNone = true := by
      rcases hbad with h | h
      · exact Or.inl h
      · exact Or.inr (by rw [h]; rfl)
    have := bfs_stepwise_hybrid_special sys src cost error_t.FAILURE cost
      (check_fail sys src cost hbad')
    rw [this]
    exact ⟨⟨fun _ => hbad, fun _ => rfl⟩, fun _ => rfl⟩
  · push_neg at hbad
    obtain ⟨hsrc, hcost⟩ := hbad
    have hsrc' : src < sys.N := by omega
    cases hc : cost with
    | none => exact absurd hc hcost
    | some buf =>
        constructor
        · constructor
          · intro hfail
            exfalso
            by_cases hone : sys.N = 1
            · have := bfs_stepwise_hybrid_special sys src _ _ _
                (check_one sys src buf hsrc' hone)
              rw [this] at hfail
              exact error_t.noConfusion hfail
            · by_cases hedge : sys.edge_count = 0
              · have := bfs_stepwise_hybrid_special sys src _ _ _
                  (check_no_edges sys src buf hsrc' hone hedge)
                rw [this] at hfail
                exact error_t.noConfusion hfail
              · have hchk : check_special_cases sys src (some buf) =
                    (error_t.SUCCESS, some buf, false) := by
                  unfold check_special_cases
                  rw [if_neg (by push_neg; exact ⟨by omega, by simp⟩),
                    if_neg hone, if_neg hedge]
                have := bfs_stepwise_hybrid_run sys src buf hchk
                rw [this] at hfail
                exact error_t.noConfusion hfail
          · intro h
            exfalso
            rcases h with h | h
            · omega
            · exact Option.noConfusion h
        · intro h
          exfalso
          rcases h with h | h
          · omega
          · exact Option.noConfusion h

theorem bfs_stepwise_hybrid_failure_iff_witness :
    ((bfs_stepwise_hybrid chainSys 99 none).1 = error_t.FAILURE) ∧
    ((bfs_stepwise_hybrid chainSys 99 none).2 = none) :=
  ⟨(bfs_stepwise_hybrid_failure_iff chainSys 99 none).1.mpr (Or.inr rfl),
    (bfs_stepwise_hybrid_failure_iff chainSys 99 none).2 (Or.inr rfl)⟩

/-! ### Edge-less graphs (claim C4) -/

/-- Claim C4: for a graph with zero edges and any in-range source,
bfs_stepwise_hybrid succeeds and writes the unreachable sentinel into
every output slot except the source's, which receives 0; the engine's
superstep loop is never entered (the answer comes straight from the
special-case check). -/
theorem bfs_stepwise_hybrid_no_edges (sys : System) (src : Nat)
    (buf : Nat → Nat) (hedge : sys.edge_count = 0) (hsrc : src < sys.N) :
    ∃ out, bfs_stepwise_hybrid sys src (some buf) =
        (error_t.SUCCESS, some out) ∧
      ∀ v, v < sys.N → out v = if v = src then 0 else INF_COST := by
  by_cases hone : sys.N = 1
  · refine ⟨Function.update buf 0 0,
      bfs_stepwise_hybrid_special sys src _ _ _
        (check_one sys src buf hsrc hone), ?_⟩
    intro v hv
    have hv0 : v = 0 := by omega
    have hs0 : src = 0 := by omega
    subst hv0
    rw [if_pos hs0.symm, Function.update_same]
  · refine ⟨_, bfs_stepwise_hybrid_special sys src _ _ _
      (check_no_edges sys src buf hsrc hone hedge), ?_⟩
    intro v hv
    by_cases hvs : v = src
    · subst hvs
      rw [if_pos rfl, Function.update_same]
    · rw [if_neg hvs, Function.update_noteq hvs]
      show (if v < sys.N then INF_COST else buf v) = INF_COST
      rw [if_pos hv]

/-- Two isolated vertices in one CPU partition. -/
def isolatedSys : System :=
  { partition_count := 1,
    parts :=
      [ { id := 0,
          subgraph := { vertex_count := 2, vertices := [0, 0, 0],
                        edges := [] },
          processor := processor_type.CPU,
          map := [0, 1] } ],
    rmt_nbrs := fun _ _ => [],
    N := 2,
    edge_count := 0 }

theorem bfs_stepwise_hybrid_no_edges_witness :
    (isolatedSys.edge_count = 0 ∧ 1 < isolatedSys.N) ∧
    (∃ out, bfs_stepwise_hybrid isolatedSys 1 (some (fun _ => 5)) =
        (error_t.SUCCESS, some out) ∧
      ∀ v, v < isolatedSys.N → out v = if v = 1 then 0 else INF_COST) :=
  ⟨⟨by decide, by decide⟩,
    bfs_stepwise_hybrid_no_edges isolatedSys 1 (fun _ => 5)
      (by decide) (by decide)⟩

/-! ### The gather protocol (claim C5) -/

/-- Claim C5: the gather phase touches no partition state and no flag;
for every other partition's inbox with nonzero traffic, it looks up
each entry's recorded local vertex id, tests the partition's own
visited bitmap, and sets the bit at the entry's index in the shared
buffer; bits are only ever added, never cleared. -/
theorem bfs_gather_publishes_visited (sys : System) (p : Nat)
    (ss : SysState) :
    (bfs_gather sys p ss).pstate = ss.pstate ∧
    (bfs_gather sys p ss).finished = ss.finished ∧
    (∀ a b, ss.boxes a b ⊆ (bfs_gather sys p ss).boxes a b) ∧
    (∀ a b idx, idx ∈ (bfs_gather sys p ss).boxes a b ↔
      (idx ∈ ss.boxes a b ∨
        (a = p ∧ b ≠ p ∧ b < sys.partition_count ∧
          idx < (sys.rmt_nbrs p b).length ∧
          bitmap_is_set (visitedOf ss p)
            ((sys.rmt_nbrs p b).getD idx 0) = true))) := by
  obtain ⟨h1, h2, h3⟩ := bfs_gather_char sys p ss
  refine ⟨h1, h2, ?_, h3⟩
  intro a b idx hidx
  exact (h3 a b idx).mpr (Or.inl hidx)

theorem bfs_gather_publishes_visited_witness :
    (0 : Nat) ∈ (bfs_gather chainSys 0
      ⟨fun q => if q = 0 then
          some ⟨fun _ => INF_COST, {1}, ∅, ∅, 0⟩ else none,
        fun _ _ => ∅, true⟩).boxes 0 1 :=
  ((bfs_gather_publishes_visited chainSys 0
      ⟨fun q => if q = 0 then
          some ⟨fun _ => INF_COST, {1}, ∅, ∅, 0⟩ else none,
        fun _ _ => ∅, true⟩).2.2.2 0 1 0).mpr
    (Or.inr ⟨rfl, by decide, by decide, by decide, by decide⟩)

/-! ### Empty partitions (claim C10) -/

/-- Claim C10: for a partition with zero vertices, the init, step,
aggregate and finalize callbacks return at once: no state is
allocated, nothing is mutated, the finished flag is untouched (even on
superstep 1), and nothing is contributed to the global cost array. -/
theorem empty_partition_callbacks_noop (sys : System)
    (sp sv superstep p : Nat) (ss : SysState) (g : Nat → Nat)
    (h : vcount sys p = 0) :
    bfs_init sys sp sv p ss = ss ∧
    bfs sys superstep p ss = ss ∧
    bfs_aggregate sys p ss g = g ∧
    bfs_finalize sys p ss = ss := by
  have h' : (partAt sys p).subgraph.vertex_count = 0 := h
  refine ⟨?_, ?_, ?_, ?_⟩
  · unfold bfs_init
    rw [if_pos h']
  · unfold bfs
    rw [if_pos h']
  · unfold bfs_aggregate
    rw [if_pos h']
  · unfold bfs_finalize
    rw [if_pos h]

/-- One occupied CPU partition and one empty GPU partition. -/
def emptyPartSys : System :=
  { partition_count := 2,
    parts :=
      [ { id := 0,
          subgraph := { vertex_count := 1, vertices := [0, 0],
                        edges := [] },
          processor := processor_type.CPU,
          map := [0] },
        { id := 1,
          subgraph := { vertex_count := 0, vertices := [0],
                        edges := [] },
          processor := processor_type.GPU,
          map := [] } ],
    rmt_nbrs := fun _ _ => [],
    N := 1,
    edge_count := 0 }

theorem empty_partition_callbacks_noop_witness :
    vcount emptyPartSys 1 = 0 ∧
    (bfs_init emptyPartSys 0 0 1
        ⟨fun _ => none, fun _ _ => ∅, true⟩ =
      ⟨fun _ => none, fun _ _ => ∅, true⟩ ∧
    bfs emptyPartSys 1 1 ⟨fun _ => none, fun _ _ => ∅, true⟩ =
      ⟨fun _ => none, fun _ _ => ∅, true⟩ ∧
    bfs_aggregate emptyPartSys 1
        ⟨fun _ => none, fun _ _ => ∅, true⟩ (fun _ => 3) = (fun _ => 3) ∧
    bfs_finalize emptyPartSys 1 ⟨fun _ => none, fun _ _ => ∅, true⟩ =
      ⟨fun _ => none, fun _ _ => ∅, true⟩) :=
  ⟨by decide,
    empty_partition_callbacks_noop emptyPartSys 0 0 1 1
      ⟨fun _ => none, fun _ _ => ∅, true⟩ (fun _ => 3) (by decide)⟩

/-! ### Monotonicity (claim C6) -/

/-- The cost array recorded for a partition (a zero function when the
partition's state is unallocated). -/
def costOf (ss : SysState) (q : Nat) : Nat → Nat :=
  match ss.pstate q with
  | some st => st.cost
  | none => fun _ => 0

/-- The level recorded for a partition. -/
def levelOf (ss : SysState) (q : Nat) : Nat :=
  match ss.pstate q with
  | some st => st.level
  | none => 0

/-- Core monotonicity of one execution callback. -/
theorem bfs_mono_aux (sys : System) (superstep p : Nat) (ss : SysState)
    (q v : Nat) :
    (v ∈ visitedOf ss q → v ∈ visitedOf (bfs sys superstep p ss) q ∧
      costOf (bfs sys superstep p ss) q v = costOf ss q v) ∧
    (v ∉ visitedOf ss q → v ∈ visitedOf (bfs sys superstep p ss) q →
      costOf (bfs sys superstep p ss) q v = levelOf ss q + 1) := by
  by_cases hqp : q = p
  · subst hqp
    rw [bfs_eq]
    unfold visitedOf costOf levelOf
    simp only [Function.update_same]
    unfold stepRes
    by_cases h0 : (partAt sys q).subgraph.vertex_count = 0
    · rw [if_pos h0]
      exact ⟨fun h => ⟨h, rfl⟩, fun h1 h2 => absurd h2 h1⟩
    · rw [if_neg h0]
      by_cases h1 : superstep = 1
      · rw [if_pos h1]
        exact ⟨fun h => ⟨h, rfl⟩, fun h1 h2 => absurd h2 h1⟩
      · rw [if_neg h1]
        cases hst : ss.pstate q with
        | none => exact ⟨fun h => ⟨h, rfl⟩, fun h1 h2 => absurd h2 h1⟩
        | some st =>
            simp only
            have hcpu : bfs_stepwise_cpu (partAt sys q) ss.boxes st true =
                bfs_bu_step (partAt sys q)
                  (frontier_view (partAt sys q) ss.boxes
                    (frontier_update_bitmap st))
                  (frontier_update_bitmap st) true := rfl
            rw [hcpu, bfs_bu_step_char]
            simp only
            constructor
            · intro hmem
              constructor
              · rw [Finset.mem_union]
                exact Or.inl hmem
              · have hb : becomes_visited (partAt sys q).subgraph
                    (frontier_view (partAt sys q) ss.boxes
                      (frontier_update_bitmap st))
                    (frontier_update_bitmap st) v = false := by
                  unfold becomes_visited
                  have : bitmap_is_set
                      (frontier_update_bitmap st).visited v = true := by
                    simp [bitmap_is_set]
                    exact hmem
                  rw [this]
                  simp
                rw [if_neg (fun hc => Bool.false_ne_true (hb ▸ hc.2))]
                rfl
            · intro hnot hmem
              rw [Finset.mem_union] at hmem
              rcases hmem with h | h
              · exact absurd h hnot
              · rw [Finset.mem_filter] at h
                rw [if_pos ⟨Finset.mem_range.mp h.1, h.2⟩]
                rfl
  · have hps : (bfs sys superstep p ss).pstate q = ss.pstate q := by
      rw [bfs_eq]
      exact Function.update_noteq hqp _ _
    unfold visitedOf costOf
    rw [hps]
    exact ⟨fun h => ⟨h, rfl⟩, fun h1 h2 => absurd h2 h1⟩

theorem visitedOf_congr {ss1 ss2 : SysState} (h : ss1.pstate = ss2.pstate)
    (q : Nat) : visitedOf ss1 q = visitedOf ss2 q := by
  unfold visitedOf
  rw [h]

theorem costOf_congr {ss1 ss2 : SysState} (h : ss1.pstate = ss2.pstate)
    (q : Nat) : costOf ss1 q = costOf ss2 q := by
  unfold costOf
  rw [h]

theorem steps_fold_mono (sys : System) (s : Nat) :
    ∀ (l : List Nat) (ss : SysState) (q v : Nat),
      v ∈ visitedOf ss q →
        v ∈ visitedOf (l.foldl (fun t p => bfs sys s p t) ss) q ∧
        costOf (l.foldl (fun t p => bfs sys s p t) ss) q v =
          costOf ss q v := by
  intro l
  induction l with
  | nil => intro ss q v h; exact ⟨h, rfl⟩
  | cons p t ih =>
      intro ss q v h
      rw [List.foldl_cons]
      obtain ⟨h1, h2⟩ := (bfs_mono_aux sys s p ss q v).1 h
      obtain ⟨h3, h4⟩ := ih (bfs sys s p ss) q v h1
      exact ⟨h3, h4.trans h2⟩

theorem gathers_fold_pstate (sys : System) :
    ∀ (l : List Nat) (ss : SysState),
      (l.foldl (fun t p => bfs_gather sys p t) ss).pstate = ss.pstate := by
  intro l
  induction l with
  | nil => intro ss; rfl
  | cons p t ih =>
      intro ss
      rw [List.foldl_cons, ih]
      rfl

theorem round_mono (sys : System) (s : Nat) (ss : SysState) (q v : Nat)
    (h : v ∈ visitedOf ss q) :
    v ∈ visitedOf (engine_round sys s ss) q ∧
    costOf (engine_round sys s ss) q v = costOf ss q v := by
  unfold engine_round
  have hps := gathers_fold_pstate sys (List.range sys.partition_count)
    ((List.range sys.partition_count).foldl (fun t p => bfs sys s p t) ss)
  rw [visitedOf_congr hps, costOf_congr hps]
  exact steps_fold_mono sys s (List.range sys.partition_count) ss q v h

theorem loop_mono (sys : System) :
    ∀ (fuel s : Nat) (ss : SysState) (q v : Nat),
      v ∈ visitedOf ss q →
        v ∈ visitedOf (engine_loop sys fuel s ss) q ∧
        costOf (engine_loop sys fuel s ss) q v = costOf ss q v := by
  intro fuel
  induction fuel with
  | zero => intro s ss q v h; exact ⟨h, rfl⟩
  | succ f ih =>
      intro s ss q v h
      have hT : v ∈ visitedOf { ss with finished := true } q := h
      obtain ⟨h1, h2⟩ := round_mono sys s { ss with finished := true } q v hT
      have hunfold : engine_loop sys (f + 1) s ss =
          (if (engine_round sys s { ss with finished := true }).finished =
              true then
            engine_round sys s { ss with finished := true }
          else
            engine_loop sys f (s + 1)
              (engine_round sys s { ss with finished := true })) := rfl
      rw [hunfold]
      by_cases hfin : (engine_round sys s
          { ss with finished := true }).finished = true
      · rw [if_pos hfin]
        exact ⟨h1, h2⟩
      · rw [if_neg hfin]
        obtain ⟨h3, h4⟩ := ih (s + 1)
          (engine_round sys s { ss with finished := true }) q v h1
        exact ⟨h3, h4.trans h2⟩

/-- Claim C6: across a run, each partition's visited set only grows;
a visited vertex is skipped by every later step, so its cost never
changes once assigned; and the cost assigned to a newly visited vertex
in a superstep is the partition's current level + 1. -/
theorem visited_monotone_cost_assigned_once (sys : System)
    (superstep p q v : Nat) (ss : SysState) :
    (v ∈ visitedOf ss q → v ∈ visitedOf (bfs sys superstep p ss) q ∧
      costOf (bfs sys superstep p ss) q v = costOf ss q v) ∧
    (v ∉ visitedOf ss q → v ∈ visitedOf (bfs sys superstep p ss) q →
      costOf (bfs sys superstep p ss) q v = levelOf ss q + 1) ∧
    (∀ fuel s, v ∈ visitedOf ss q →
      v ∈ visitedOf (engine_loop sys fuel s ss) q ∧
      costOf (engine_loop sys fuel s ss) q v = costOf ss q v) :=
  ⟨(bfs_mono_aux sys superstep p ss q v).1,
    (bfs_mono_aux sys superstep p ss q v).2,
    fun fuel s h => loop_mono sys fuel s ss q v h⟩

theorem visited_monotone_cost_assigned_once_witness :
    ((0 : Nat) ∈ visitedOf
        ⟨fun q => if q = 0 then
            some ⟨fun _ => INF_COST, {0}, ∅, ∅, 0⟩ else none,
          fun _ _ => ∅, true⟩ 0) ∧
    ((0 : Nat) ∈ visitedOf
        (bfs chainSys 2 0
          ⟨fun q => if q = 0 then
              some ⟨fun _ => INF_COST, {0}, ∅, ∅, 0⟩ else none,
            fun _ _ => ∅, true⟩) 0 ∧
      costOf
        (bfs chainSys 2 0
          ⟨fun q => if q = 0 then
              some ⟨fun _ => INF_COST, {0}, ∅, ∅, 0⟩ else none,
            fun _ _ => ∅, true⟩) 0 0 =
      costOf
        ⟨fun q => if q = 0 then
            some ⟨fun _ => INF_COST, {0}, ∅, ∅, 0⟩ else none,
          fun _ _ => ∅, true⟩ 0 0) :=
  ⟨by decide,
    (visited_monotone_cost_assigned_once chainSys 2 0 0 0
      ⟨fun q => if q = 0 then
          some ⟨fun _ => INF_COST, {0}, ∅, ∅, 0⟩ else none,
        fun _ _ => ∅, true⟩).1 (by decide)⟩

/-- Claim C8: on superstep 1 the execution callback of a nonempty
partition only clears the finished flag and performs no computation
(state and boxes untouched); after the round-1 gather each inbox entry
is set exactly when its recorded vertex maps to the source, so every
partition observes the source in its frontier inputs from superstep 2
onward. -/
theorem superstep_one_noop (sys : System) (src sp sv p : Nat)
    (ss ss1 : SysState) (hwf : sysWF sys) (hsrc : src < sys.N)
    (hsp : sp < sys.partition_count) (hsv : sv < vcount sys sp)
    (hg : gmap sys sp sv = src) (hvp : 0 < vcount sys p)
    (hss1 : ss1 = (List.range sys.partition_count).foldl
      (fun t q => bfs_init sys sp sv q t)
      ⟨fun _ => none, fun _ _ => ∅, true⟩) :
    bfs sys 1 p ss = { ss with finished := false } ∧
    (engine_round sys 1 { ss1 with finished := true }).finished = false ∧
    (∀ a b idx,
      idx ∈ (engine_round sys 1 { ss1 with finished := true }).boxes a b ↔
        (a < sys.partition_count ∧ b < sys.partition_count ∧ b ≠ a ∧
          idx < (sys.rmt_nbrs a b).length ∧
          gmap sys a ((sys.rmt_nbrs a b).getD idx 0) = src)) := by
  have h0 : ¬ (partAt sys p).subgraph.vertex_count = 0 := by
    have h := hvp
    unfold vcount at h
    omega
  obtain ⟨hinv, hfin⟩ := init_round1_char sys src sp sv hwf hsrc hsp hsv hg
    ss1 hss1
  refine ⟨?_, hfin, ?_⟩
  · rw [bfs_eq]
    have hres : stepRes sys 1 p ss.boxes (ss.pstate p) = ss.pstate p := by
      unfold stepRes
      rw [if_neg h0, if_pos rfl]
    have hkeep : stepKeeps sys 1 p ss.boxes (ss.pstate p) = false := by
      unfold stepKeeps
      rw [if_neg h0, if_pos rfl]
    rw [hres, hkeep, Function.update_eq_self, Bool.and_false]
  · intro a b idx
    have hb := hinv.2 a b idx
    rw [hb]
    show _ ↔ (a < sys.partition_count ∧ b < sys.partition_count ∧ b ≠ a ∧
      idx < (sys.rmt_nbrs a b).length ∧
      gmap sys a ((sys.rmt_nbrs a b).getD idx 0) = src)
    constructor
    · rintro ⟨h1, h2, h3, h4, h5⟩
      exact ⟨h1, h2, h3, h4, Finset.mem_singleton.mp h5⟩
    · rintro ⟨h1, h2, h3, h4, h5⟩
      exact ⟨h1, h2, h3, h4, Finset.mem_singleton.mpr h5⟩

theorem superstep_one_noop_witness :
    bfs chainSys 1 0 ⟨fun _ => none, fun _ _ => ∅, true⟩ =
      { (⟨fun _ => none, fun _ _ => ∅, true⟩ : SysState) with
          finished := false } :=
  (superstep_one_noop chainSys 0 0 0 0
    ⟨fun _ => none, fun _ _ => ∅, true⟩
    ((List.range chainSys.partition_count).foldl
      (fun t q => bfs_init chainSys 0 0 q t)
      ⟨fun _ => none, fun _ _ => ∅, true⟩)
    (by decide) (by decide) (by decide) (by decide) (by decide)
    (by decide) rfl).1
